import Mathlib

/-!
Verification of the label_sync reconciler (label_sync/main.go).

The Go program classifies a recursive label-history tree into required,
archaic and dead labels (`ClassifyLabels`), diffs each repository's
current label set against the classification (`SyncLabels`) and applies
the resulting actions through a GitHub client (`DoUpdates`).

The embedding below translates the Go data model and functions into
Lean.  Go maps (`map[string]...`) are modelled as association lists with
Go's assignment semantics (`mapSet` overwrites the binding of an
existing key and otherwise appends); `time.Time` is modelled as `Int`
(`now.After(t)` becomes `t < now`); the `time.Now()` call inside
`SyncLabels` is hoisted into an explicit `now` parameter.
-/

namespace LabelSync

/-- The label tree of labels.yaml: label_sync/main.go `type Label struct`.
`previously` is the list of previous names of the label (Go field
`Previously`), `deleteAfter` the optional retirement timestamp (Go field
`DeleteAfter`, modelled as `Int`).  The Go struct's internal `parent`
pointer, which `ClassifyLabels` sets on archaic entries only, is modelled
by the separate `ArchaicLabel` pairing below. -/
inductive Label : Type where
  | mk (name : String) (color : String) (description : String)
      (target : String) (prowPlugin : String) (addedBy : String)
      (previously : List Label) (deleteAfter : Option Int) : Label

mutual

def decEqLabel : (a b : Label) → Decidable (a = b)
  | .mk n1 c1 d1 t1 p1 a1 prev1 da1, .mk n2 c2 d2 t2 p2 a2 prev2 da2 =>
    if hn : n1 = n2 then
      if hc : c1 = c2 then
        if hd : d1 = d2 then
          if ht : t1 = t2 then
            if hp : p1 = p2 then
              if ha : a1 = a2 then
                match decEqLabelList prev1 prev2 with
                | isTrue hprev =>
                  if hda : da1 = da2 then
                    isTrue (by rw [hn, hc, hd, ht, hp, ha, hprev, hda])
                  else isFalse (by intro h; injection h; contradiction)
                | isFalse hprev => isFalse (by intro h; injection h; contradiction)
              else isFalse (by intro h; injection h; contradiction)
            else isFalse (by intro h; injection h; contradiction)
          else isFalse (by intro h; injection h; contradiction)
        else isFalse (by intro h; injection h; contradiction)
      else isFalse (by intro h; injection h; contradiction)
    else isFalse (by intro h; injection h; contradiction)

def decEqLabelList : (as bs : List Label) → Decidable (as = bs)
  | [], [] => isTrue rfl
  | [], _ :: _ => isFalse (by intro h; exact List.noConfusion h)
  | _ :: _, [] => isFalse (by intro h; exact List.noConfusion h)
  | a :: as, b :: bs =>
    match decEqLabel a b with
    | isTrue h1 =>
      match decEqLabelList as bs with
      | isTrue h2 => isTrue (by rw [h1, h2])
      | isFalse h2 => isFalse (by intro h; injection h; contradiction)
    | isFalse h1 => isFalse (by intro h; injection h; contradiction)

end

instance : DecidableEq Label := decEqLabel

instance {e a : Type} [DecidableEq e] [DecidableEq a] : DecidableEq (Except e a) :=
  fun x y =>
    match x, y with
    | .ok v, .ok w =>
        if h : v = w then isTrue (by rw [h])
        else isFalse (by intro hx; injection hx; contradiction)
    | .error v, .error w =>
        if h : v = w then isTrue (by rw [h])
        else isFalse (by intro hx; injection hx; contradiction)
    | .ok v, .error w => isFalse (by intro hx; exact Except.noConfusion hx)
    | .error v, .ok w => isFalse (by intro hx; exact Except.noConfusion hx)

def Label.name : Label → String
  | .mk n _ _ _ _ _ _ _ => n

def Label.color : Label → String
  | .mk _ c _ _ _ _ _ _ => c

def Label.description : Label → String
  | .mk _ _ d _ _ _ _ _ => d

def Label.previously : Label → List Label
  | .mk _ _ _ _ _ _ p _ => p

def Label.deleteAfter : Label → Option Int
  | .mk _ _ _ _ _ _ _ d => d

/-- Go's `strings.ToLower`, which the tool applies to every label name:
lowercase each character. -/
def strToLower (s : String) : String := String.mk (s.data.map Char.toLower)

/-- A label as observed on a repository: the `Name`/`Description`/`Color`
fields of `github.Label` that `SyncLabels` reads. -/
structure GhLabel : Type where
  name : String
  color : String
  description : String
deriving DecidableEq

/-- Conversion performed at the top of the repo loop in `SyncLabels`:
`Label{Name: l.Name, Description: l.Description, Color: l.Color}` with
every other field left at its zero value. -/
def ghToLabel (l : GhLabel) : Label :=
  Label.mk l.name l.color l.description "" "" "" [] none

/-- The Go `Configuration` struct: the list of top-level labels. -/
structure Configuration : Type where
  labels : List Label
deriving DecidableEq

/-- The Go `Update` struct (field `repo`, `Why`, `Wanted`, `Current`). -/
structure Update : Type where
  repo : String
  why : String
  wanted : Option Label
  current : Option Label
deriving DecidableEq

/-- `RepoUpdates`: repo name → list of updates, as an association list. -/
abbrev RepoUpdates := List (String × List Update)

/-- Lookup in an association list modelling a Go map read. -/
def lookupA {α : Type} : List (String × α) → String → Option α
  | [], _ => none
  | (k', v) :: rest, k => if k' = k then some v else lookupA rest k

/-- Go map assignment `m[k] = v`: overwrite the binding of an existing
key, otherwise add the binding. -/
def mapSet {α : Type} : List (String × α) → String → α → List (String × α)
  | [], k, v => [(k, v)]
  | (k', v') :: rest, k, v =>
      if k' = k then (k, v) :: rest else (k', v') :: mapSet rest k v

/-- label_sync/main.go `func kill`: a `dead` update. -/
def kill (repo : String) (label : Label) : Update :=
  { repo := repo, why := "dead", wanted := none, current := some label }

/-- label_sync/main.go `func create`: a `missing` update. -/
def create (repo : String) (label : Label) : Update :=
  { repo := repo, why := "missing", wanted := some label, current := none }

/-- label_sync/main.go `func rename`. -/
def rename (repo : String) (previous wanted : Label) : Update :=
  { repo := repo, why := "rename", wanted := some wanted, current := some previous }

/-- label_sync/main.go `func change`: `Current` and `Wanted` are both the
desired label. -/
def change (repo : String) (label : Label) : Update :=
  { repo := repo, why := "change", wanted := some label, current := some label }

/-- label_sync/main.go `func move`: a `migrate` update. -/
def move (repo : String) (previous wanted : Label) : Update :=
  { repo := repo, why := "migrate", wanted := some wanted, current := some previous }

/-- An archaic label together with the `parent` pointer that
`ClassifyLabels` sets on it (`l.parent = parent`): the top-level ancestor
of its rename chain. -/
structure ArchaicLabel : Type where
  label : Label
  parent : Label
deriving DecidableEq

/-- The three classification maps that `ClassifyLabels` fills in. -/
structure Classified : Type where
  required : List (String × Label)
  archaic : List (String × ArchaicLabel)
  dead : List (String × Label)
deriving DecidableEq

/-- The `first` pointer of `ClassifyLabels`: the passed parent when
non-nil, otherwise the current node itself. -/
def parentFirst (parent : Option Label) (l : Label) : Option Label :=
  match parent with
  | none => some l
  | some p => some p

/-- The switch statement of `ClassifyLabels` for one node, in source
order: top-level live label → `required`; expired `DeleteAfter` (at any
depth) → `dead`; any remaining node with a parent → `archaic` (with the
parent pointer recorded); a top-level node with an unexpired
`DeleteAfter` matches no case. -/
def classifyCase (cl : Classified) (now : Int) (parent : Option Label)
    (l : Label) : Classified :=
  let lower := (strToLower (Label.name l))
  match parent, Label.deleteAfter l with
  | none, none => { cl with required := mapSet cl.required lower l }
  | none, some t =>
      if t < now then { cl with dead := mapSet cl.dead lower l } else cl
  | some p, some t =>
      if t < now then { cl with dead := mapSet cl.dead lower l }
      else { cl with archaic := mapSet cl.archaic lower ⟨l, p⟩ }
  | some p, none => { cl with archaic := mapSet cl.archaic lower ⟨l, p⟩ }

mutual

/-- The loop body of `ClassifyLabels` for one node: classify it with
`classifyCase`, then recurse into `Previously` with `parent` fixed to
the top-level ancestor (`parentFirst`). -/
def classifyOne : Label → Classified → Int → Option Label → Classified
  | Label.mk n c d tg pp ab prev da, cl, now, parent =>
      classifyLabels prev
        (classifyCase cl now parent (Label.mk n c d tg pp ab prev da)) now
        (parentFirst parent (Label.mk n c d tg pp ab prev da))

/-- label_sync/main.go `func ClassifyLabels`.  The Go function mutates
the three maps; here the accumulator `cl` is threaded explicitly
through `classifyOne` over the node list. -/
def classifyLabels : List Label → Classified → Int → Option Label → Classified
  | [], cl, _, _ => cl
  | l :: rest, cl, now, parent =>
      classifyLabels rest (classifyOne l cl now parent) now parent

end

mutual

/-- The loop body of label_sync/main.go `func validate` for one node:
record the lowercase name in `seen` (name → path), failing if it is
already present, then recurse into `Previously`. -/
def validateOne : Label → String → List (String × String) →
    Except String (List (String × String))
  | Label.mk n _ _ _ _ _ prev _, parent, seen =>
      let name := (strToLower n)
      let path := parent ++ "." ++ name
      match lookupA seen name with
      | some other =>
          .error ("duplicate label " ++ name ++ " at " ++ path ++ " and " ++ other)
      | none => validate prev path (mapSet seen name path)

/-- label_sync/main.go `func validate`: depth-first walk over the node
list, threading `seen` and stopping at the first error. -/
def validate : List Label → String → List (String × String) →
    Except String (List (String × String))
  | [], _, seen => .ok seen
  | l :: rest, parent, seen =>
      match validateOne l parent seen with
      | .error e => .error e
      | .ok seen2 => validate rest parent seen2

end

/-- `func (c Configuration) validate`: wraps a `validate` failure in
"invalid config: ...". -/
def Configuration.validateConfig (c : Configuration) : Option String :=
  match validate c.labels "" [] with
  | .error e => some ("invalid config: " ++ e)
  | .ok _ => none

/-- The loop in `SyncLabels` that builds the lowercase `current` map
while emitting a `kill` action for every current label found in `dead`.
The accumulator pairs the action list with the map under construction. -/
def buildCurrentStep (repo : String) (dead : List (String × Label))
    (acc : List Update × List (String × Label)) (l : Label) :
    List Update × List (String × Label) :=
  let lower := (strToLower (Label.name l))
  let acts := match lookupA dead lower with
    | some _ => acc.1 ++ [kill repo l]
    | none => acc.1
  (acts, mapSet acc.2 lower l)

/-- The body of the `for name, l := range archaic` loop in `SyncLabels`.
The accumulator is `(actions, moveActions, current)`.  If the archaic
name is absent from `current` nothing happens; otherwise the desired
label is `Label{Name: l.parent.Name, Description: l.Description, Color:
l.parent.Color}` and either a `migrate` action is queued (target name
already present) or a `rename` action is emitted and `current` gains the
target name. -/
def archaicStep (repo : String)
    (acc : List Update × List Update × List (String × Label))
    (entry : String × ArchaicLabel) :
    List Update × List Update × List (String × Label) :=
  match lookupA acc.2.2 entry.1 with
  | none => acc
  | some cur =>
      let al := entry.2
      let desired := Label.mk (Label.name al.parent) (Label.color al.parent)
        (Label.description al.label) "" "" "" [] none
      let desiredName := (strToLower (Label.name al.parent))
      match lookupA acc.2.2 desiredName with
      | some _ => (acc.1, acc.2.1 ++ [move repo cur desired], acc.2.2)
      | none =>
          (acc.1 ++ [rename repo cur desired], acc.2.1,
            mapSet acc.2.2 desiredName desired)

/-- The body of the `for name, l := range required` loop in `SyncLabels`:
emit `missing` when the name is absent, `rename` when the stored name
differs (only possible by case), `change` when color or description
differ. -/
def requiredStep (repo : String) (current : List (String × Label))
    (acc : List Update) (entry : String × Label) : List Update :=
  match lookupA current entry.1 with
  | none => acc ++ [create repo entry.2]
  | some cur =>
      if Label.name entry.2 ≠ Label.name cur then acc ++ [rename repo cur entry.2]
      else if Label.color entry.2 ≠ Label.color cur then acc ++ [change repo entry.2]
      else if Label.description entry.2 ≠ Label.description cur then
        acc ++ [change repo entry.2]
      else acc

/-- The per-repository body of the repo loop in `SyncLabels`: convert the
observed labels, validate them (an invalid repo is skipped with an
error), then run the dead / archaic / required passes and append the
queued `migrate` actions last. -/
def syncRepo (cl : Classified) (repo : String) (repoLabels : List GhLabel) :
    Except String (List Update) :=
  let labels := repoLabels.map ghToLabel
  match validate labels "" [] with
  | .error e => .error ("invalid labels in " ++ repo ++ ": " ++ e)
  | .ok _ =>
      let built := labels.foldl (buildCurrentStep repo cl.dead) ([], [])
      let afterArchaic := cl.archaic.foldl (archaicStep repo) (built.1, [], built.2)
      let actions := cl.required.foldl (requiredStep repo afterArchaic.2.2) afterArchaic.1
      .ok (actions ++ afterArchaic.2.1)

/-- One step of the final grouping loop of `SyncLabels`:
`u[a.repo] = append(u[a.repo], a)`. -/
def groupStep (u : RepoUpdates) (a : Update) : RepoUpdates :=
  mapSet u a.repo ((lookupA u a.repo).getD [] ++ [a])

/-- The final grouping loop of `SyncLabels` over the flat action list. -/
def groupUpdates (actions : List Update) : RepoUpdates :=
  actions.foldl groupStep []

/-- The step of the repo loop at the `SyncLabels` level: an invalid repo
contributes its validation error, a valid one appends its actions. -/
def syncRepoStep (cl : Classified) (acc : List Update × List String)
    (r : String × List GhLabel) : List Update × List String :=
  match syncRepo cl r.1 r.2 with
  | .error e => (acc.1, acc.2 ++ [e])
  | .ok acts => (acc.1 ++ acts, acc.2)

/-- label_sync/main.go `func SyncLabels`.  The `time.Now()` call is
modelled by the explicit `now` parameter; repositories (a Go map) are
given as an association list.  Returns either the fatal
"invalid config" error, or the grouped updates together with the list of
per-repo validation errors. -/
def syncLabels (config : Configuration) (repos : List (String × List GhLabel))
    (now : Int) : Except String (RepoUpdates × List String) :=
  match config.validateConfig with
  | some e => .error ("invalid config: " ++ e)
  | none =>
      let cl := classifyLabels config.labels ⟨[], [], []⟩ now none
      let res := repos.foldl (syncRepoStep cl) ([], [])
      .ok (groupUpdates res.1, res.2)

/-! ## The Applier (`DoUpdates`)

`DoUpdates` dispatches every update through a worker pool; each update
is processed by the `switch update.Why` statement.  The per-update
processing is modelled by `doUpdate`, which records the GitHub calls it
makes (in order) together with the errors pushed on the error channel.
A client call that returns `some e` fails with error `e`; `findIssues`
returns the issue-number list and an optional error, mirroring Go's
multiple return values. -/

/-- One GitHub API call made by the applier. -/
inductive Call : Type where
  | findIssues (query : String)
  | addRepoLabel (org repo name description color : String)
  | updateRepoLabel (org repo currentName newName description color : String)
  | deleteRepoLabel (org repo label : String)
  | addLabel (org repo : String) (number : Int) (label : String)
  | removeLabel (org repo : String) (number : Int) (label : String)
deriving DecidableEq

/-- The `client` interface of label_sync/main.go, restricted to the
calls `DoUpdates` makes.  Each operation is a pure function of its
arguments returning an optional error; `findIssues` additionally returns
the matching issue numbers. -/
structure Client : Type where
  addRepoLabel : String → String → String → String → String → Option String
  updateRepoLabel : String → String → String → String → String → String → Option String
  deleteRepoLabel : String → String → String → Option String
  addLabel : String → String → Int → String → Option String
  removeLabel : String → String → Int → String → Option String
  findIssues : String → List Int × Option String

/-- The issue query built in the `migrate` case:
`is:open repo:ORG/REPO label:"CUR" -label:"WANT"`. -/
def migrateQuery (org repo cur want : String) : String :=
  "is:open repo:" ++ org ++ "/" ++ repo ++ " label:\"" ++ cur ++
    "\" -label:\"" ++ want ++ "\""

/-- The zero value of the Go `Label` struct, used where the Go code
dereferences an `Update` pointer field (well-formed updates always carry
the fields their kind needs). -/
def emptyLabel : Label := Label.mk "" "" "" "" "" "" [] none

/-- The per-issue body of the `migrate` loop: add the new label, and
only on success remove the old one; a failed add records its error and
skips the removal, continuing with later issues. -/
def migrateIssueStep (gc : Client) (org repo wantName curName : String)
    (acc : List Call × List String) (i : Int) : List Call × List String :=
  match gc.addLabel org repo i wantName with
  | some e => (acc.1 ++ [Call.addLabel org repo i wantName], acc.2 ++ [e])
  | none =>
      match gc.removeLabel org repo i curName with
      | some e =>
          (acc.1 ++ [Call.addLabel org repo i wantName,
            Call.removeLabel org repo i curName], acc.2 ++ [e])
      | none =>
          (acc.1 ++ [Call.addLabel org repo i wantName,
            Call.removeLabel org repo i curName], acc.2)

/-- The `switch update.Why` statement in `DoUpdates`, for one update:
the calls made (in order) and the errors recorded. -/
def doUpdate (gc : Client) (org repo : String) (u : Update) :
    List Call × List String :=
  let wanted := u.wanted.getD emptyLabel
  let current := u.current.getD emptyLabel
  if u.why = "missing" then
    let res := gc.addRepoLabel org repo (Label.name wanted)
      (Label.description wanted) (Label.color wanted)
    ([Call.addRepoLabel org repo (Label.name wanted) (Label.description wanted)
        (Label.color wanted)], res.toList)
  else if u.why = "change" ∨ u.why = "rename" then
    let res := gc.updateRepoLabel org repo (Label.name current) (Label.name wanted)
      (Label.description wanted) (Label.color wanted)
    ([Call.updateRepoLabel org repo (Label.name current) (Label.name wanted)
        (Label.description wanted) (Label.color wanted)], res.toList)
  else if u.why = "dead" then
    let res := gc.deleteRepoLabel org repo (Label.name current)
    ([Call.deleteRepoLabel org repo (Label.name current)], res.toList)
  else if u.why = "migrate" then
    let q := migrateQuery org repo (Label.name current) (Label.name wanted)
    let found := gc.findIssues q
    let errs0 := found.2.toList
    let del :=
      if found.1 = [] then
        match gc.deleteRepoLabel org repo (Label.name current) with
        | some e => ([Call.deleteRepoLabel org repo (Label.name current)], [e])
        | none => ([Call.deleteRepoLabel org repo (Label.name current)], [])
      else ([], [])
    let perIssue := found.1.foldl
      (migrateIssueStep gc org repo (Label.name wanted) (Label.name current)) ([], [])
    (Call.findIssues q :: (del.1 ++ perIssue.1), errs0 ++ del.2 ++ perIssue.2)
  else
    ([], ["unknown label operation: " ++ u.why])

/-! ## Derived views of the label tree

`forestNodes` lists every node of a label forest in the preorder that
`ClassifyLabels` and `validate` traverse; `forestNames` lists the
lowercase names in the same order. -/

mutual

/-- The node itself followed by all nodes of its history, preorder. -/
def labelNodes : Label → List Label
  | Label.mk n c d tg pp ab prev da =>
      Label.mk n c d tg pp ab prev da :: forestNodes prev

/-- All nodes of a forest, preorder. -/
def forestNodes : List Label → List Label
  | [] => []
  | l :: rest => labelNodes l ++ forestNodes rest

end

mutual

/-- The lowercase names in a label's subtree, preorder. -/
def labelNames : Label → List String
  | Label.mk n _ _ _ _ _ prev _ => (strToLower n) :: forestNames prev

/-- The lowercase names in a forest, preorder. -/
def forestNames : List Label → List String
  | [] => []
  | l :: rest => labelNames l ++ forestNames rest

end

/-- The calls the migrate sub-protocol makes for a single issue: the
add, followed by the remove exactly when the add succeeded. -/
def migrateIssueCalls (gc : Client) (org repo wantName curName : String)
    (i : Int) : List Call :=
  match gc.addLabel org repo i wantName with
  | some _ => [Call.addLabel org repo i wantName]
  | none => [Call.addLabel org repo i wantName, Call.removeLabel org repo i curName]

/-- The sublist of updates belonging to one repository, in order: the
contents of the `RepoUpdates` entry that the grouping loop builds. -/
def actionsFor (r : String) : List Update → List Update
  | [] => []
  | a :: rest => if a.repo = r then a :: actionsFor r rest else actionsFor r rest

/-- The actions one repository contributes to the flat action list (an
invalid repository contributes none). -/
def repoActions (cl : Classified) (r : String × List GhLabel) : List Update :=
  match syncRepo cl r.1 r.2 with
  | .ok acts => acts
  | .error _ => []

/-- The lowercase-keyed current map the dead-label pass builds, stripped
of the kill bookkeeping: every label is inserted under its lowercased
name. -/
def buildCur (labels : List Label) (m : List (String × Label)) :
    List (String × Label) :=
  labels.foldl (fun m2 l => mapSet m2 (strToLower (Label.name l)) l) m

/-- A repository snapshot that already matches the classified desired
tree: its names are duplicate-free, no current label is dead or archaic,
and every required label is present with identical name, color and
description. -/
def Converged (cl : Classified) (ls : List GhLabel) : Prop :=
  (ls.map (fun g => (strToLower g.name))).Nodup ∧
  (∀ g ∈ ls, lookupA cl.dead (strToLower g.name) = none) ∧
  (∀ g ∈ ls, lookupA cl.archaic (strToLower g.name) = none) ∧
  (∀ e ∈ cl.required, ∃ g ∈ ls, (strToLower g.name) = e.1 ∧
    g.name = Label.name e.2 ∧ g.color = Label.color e.2 ∧
    g.description = Label.description e.2)

instance (cl : Classified) (ls : List GhLabel) : Decidable (Converged cl ls) := by
  unfold Converged
  infer_instance

/-! ## Concrete inputs for counterexamples and witnesses -/

/-- A required label, as in the spec's `bug` example. -/
def labelBug : Label := Label.mk "bug" "d73a4a" "" "" "" "" [] none

/-- A configuration with the single required label `bug`. -/
def cfgBug : Configuration := ⟨[labelBug]⟩

/-- A top-level label retiring at time 5. -/
def labelOld : Label := Label.mk "old" "cccccc" "" "" "" "" [] (some 5)

/-- A configuration whose only label retires at time 5. -/
def cfgRetire : Configuration := ⟨[labelOld]⟩

/-- A snapshot of one repository that currently carries the `old`
label. -/
def reposOld : List (String × List GhLabel) := [("r", [⟨"old", "cccccc", ""⟩])]

/-- The required label of the spec's needs-sig example. -/
def labelTriage : Label :=
  Label.mk "triage/needs-information" "aa0000" "d" "" "" ""
    [Label.mk "needs-sig" "ff0000" "d" "" "" "" [] none] none

/-- The archaic `needs-sig` node paired with its top-level ancestor, as
classification records it. -/
def archaicNeedsSig : ArchaicLabel :=
  ⟨Label.mk "needs-sig" "ff0000" "d" "" "" "" [] none, labelTriage⟩

/-- The repository label `needs-sig` of the needs-sig example. -/
def needsSigGh : GhLabel := ⟨"needs-sig", "ff0000", "d"⟩

/-- The repository label `triage/needs-information`. -/
def tniGh : GhLabel := ⟨"triage/needs-information", "aa0000", "d"⟩

/-- A current map containing only `needs-sig`. -/
def curNS : List (String × Label) := [("needs-sig", ghToLabel needsSigGh)]

/-- A current map containing both `needs-sig` and
`triage/needs-information`. -/
def curBoth : List (String × Label) :=
  [("needs-sig", ghToLabel needsSigGh),
   ("triage/needs-information", ghToLabel tniGh)]

/-- The desired label a migration of `needs-sig` targets: the ancestor's
name and color with the archaic node's description. -/
def desiredNS : Label :=
  Label.mk "triage/needs-information" "aa0000" "d" "" "" "" [] none

/-- A configuration with two top-level labels whose names collide under
lowercasing. -/
def cfgDup : Configuration :=
  ⟨[labelBug, Label.mk "BUG" "000000" "" "" "" "" [] none]⟩

/-- The repository label `triage/needs-information` with a wrong
color. -/
def tniBadGh : GhLabel := ⟨"triage/needs-information", "ffffff", "d"⟩

/-- A repository label list with two names equal under lowercasing. -/
def dupGh : List GhLabel := [⟨"x", "", ""⟩, ⟨"X", "", ""⟩]

/-- A migrate update from `needs-sig` to `triage/needs-information`. -/
def migUpdate : Update :=
  move "r" (Label.mk "needs-sig" "ff0000" "d" "" "" "" [] none)
    (Label.mk "triage/needs-information" "aa0000" "d" "" "" "" [] none)

/-- A client whose issue query finds issues 1 and 2, and on which adding
a label to issue 2 fails. -/
def witClient : Client where
  addRepoLabel := fun _ _ _ _ _ => none
  updateRepoLabel := fun _ _ _ _ _ _ => none
  deleteRepoLabel := fun _ _ _ => none
  addLabel := fun _ _ i _ => if i = 2 then some "add failed" else none
  removeLabel := fun _ _ _ _ => none
  findIssues := fun _ => ([1, 2], none)

/-- A client whose issue query finds no issues. -/
def emptyClient : Client where
  addRepoLabel := fun _ _ _ _ _ => none
  updateRepoLabel := fun _ _ _ _ _ _ => none
  deleteRepoLabel := fun _ _ _ => none
  addLabel := fun _ _ _ _ => none
  removeLabel := fun _ _ _ _ => none
  findIssues := fun _ => ([], none)

/-- A client whose issue query fails, returning a nil issue list and an
error, as the Go clients do. -/
def errClient : Client where
  addRepoLabel := fun _ _ _ _ _ => none
  updateRepoLabel := fun _ _ _ _ _ _ => none
  deleteRepoLabel := fun _ _ _ => none
  addLabel := fun _ _ _ _ => none
  removeLabel := fun _ _ _ _ => none
  findIssues := fun _ => ([], some "query failed")

/-! ## Map lemmas -/

theorem lookupA_mapSet {α : Type} (m : List (String × α)) (k k' : String) (v : α) :
    lookupA (mapSet m k v) k' = if k = k' then some v else lookupA m k' := by
  induction m with
  | nil => simp [mapSet, lookupA]
  | cons p rest ih =>
      obtain ⟨k0, v0⟩ := p
      by_cases h0 : k0 = k
      · subst h0
        by_cases h1 : k0 = k'
        · subst h1; simp [mapSet, lookupA]
        · simp [mapSet, lookupA, h1]
      · by_cases h1 : k0 = k'
        · subst h1
          have h2 : ¬ k = k0 := fun h => h0 h.symm
          simp [mapSet, lookupA, h0, h2]
        · simp [mapSet, lookupA, h0, h1, ih]

/-! ## Preorder equations for the tree views -/

@[simp]
theorem labelNames_mk (n c d tg pp ab : String) (prev : List Label)
    (da : Option Int) :
    labelNames (Label.mk n c d tg pp ab prev da) = (strToLower n) :: forestNames prev := by
  rw [labelNames]

@[simp]
theorem forestNames_nil : forestNames [] = [] := by
  rw [forestNames]

@[simp]
theorem forestNames_cons (l : Label) (rest : List Label) :
    forestNames (l :: rest) = labelNames l ++ forestNames rest := by
  rw [forestNames]

@[simp]
theorem labelNodes_mk (n c d tg pp ab : String) (prev : List Label)
    (da : Option Int) :
    labelNodes (Label.mk n c d tg pp ab prev da) =
      Label.mk n c d tg pp ab prev da :: forestNodes prev := by
  rw [labelNodes]

@[simp]
theorem forestNodes_nil : forestNodes [] = [] := by
  rw [forestNodes]

@[simp]
theorem forestNodes_cons (l : Label) (rest : List Label) :
    forestNodes (l :: rest) = labelNodes l ++ forestNodes rest := by
  rw [forestNodes]

mutual

theorem labelNames_eq_map : ∀ l : Label,
    labelNames l = (labelNodes l).map (fun x => (strToLower (Label.name x)))
  | .mk n c d tg pp ab prev da => by
      rw [labelNames_mk, labelNodes_mk, List.map_cons, forestNames_eq_map prev]
      rfl

theorem forestNames_eq_map : ∀ ls : List Label,
    forestNames ls = (forestNodes ls).map (fun x => (strToLower (Label.name x)))
  | [] => by simp
  | l :: rest => by
      rw [forestNames_cons, forestNodes_cons, List.map_append,
        labelNames_eq_map l, forestNames_eq_map rest]

end

theorem name_mem_forestNames {l : Label} {ls : List Label}
    (h : l ∈ forestNodes ls) : (strToLower (Label.name l)) ∈ forestNames ls := by
  rw [forestNames_eq_map]
  exact List.mem_map_of_mem _ h

/-! ## Frame lemmas for classification -/

theorem classifyCase_lookup_ne (cl : Classified) (now : Int)
    (parent : Option Label) (l : Label) (k : String)
    (h : k ≠ (strToLower (Label.name l))) :
    lookupA (classifyCase cl now parent l).required k = lookupA cl.required k ∧
    lookupA (classifyCase cl now parent l).archaic k = lookupA cl.archaic k ∧
    lookupA (classifyCase cl now parent l).dead k = lookupA cl.dead k := by
  have h2 : ¬ (strToLower (Label.name l)) = k := fun hx => h hx.symm
  unfold classifyCase
  rcases parent with _ | p <;> rcases hda : Label.deleteAfter l with _ | t <;>
    simp [lookupA_mapSet, h2]
  · split <;> simp [lookupA_mapSet, h2]
  · split <;> simp [lookupA_mapSet, h2]

theorem classify_frame : ∀ (ls : List Label) (cl : Classified) (now : Int)
    (parent : Option Label) (k : String), k ∉ forestNames ls →
    lookupA (classifyLabels ls cl now parent).required k = lookupA cl.required k ∧
    lookupA (classifyLabels ls cl now parent).archaic k = lookupA cl.archaic k ∧
    lookupA (classifyLabels ls cl now parent).dead k = lookupA cl.dead k
  | [], cl, now, parent, k, _ => by simp [classifyLabels]
  | .mk n c d tg pp ab prev da :: rest, cl, now, parent, k, h => by
      rw [forestNames_cons, labelNames_mk] at h
      simp only [List.mem_append, List.mem_cons, not_or] at h
      obtain ⟨⟨hk, hprev⟩, hrest⟩ := h
      have hcase := classifyCase_lookup_ne cl now parent
        (Label.mk n c d tg pp ab prev da) k (by simpa [Label.name] using hk)
      have ih1 := classify_frame prev
        (classifyCase cl now parent (Label.mk n c d tg pp ab prev da)) now
        (parentFirst parent (Label.mk n c d tg pp ab prev da)) k hprev
      have ih2 := classify_frame rest
        (classifyLabels prev
          (classifyCase cl now parent (Label.mk n c d tg pp ab prev da)) now
          (parentFirst parent (Label.mk n c d tg pp ab prev da)))
        now parent k hrest
      simp only [classifyLabels, classifyOne]
      exact ⟨by rw [ih2.1, ih1.1, hcase.1],
        by rw [ih2.2.1, ih1.2.1, hcase.2.1],
        by rw [ih2.2.2, ih1.2.2, hcase.2.2]⟩

/-- Splitting the no-duplicates invariant at the head node of a
forest. -/
theorem nodup_head_decomp {n : String} {prevN restN : List String}
    (h : ((n :: prevN) ++ restN).Nodup) :
    n ∉ prevN ∧ n ∉ restN ∧ prevN.Nodup ∧ restN.Nodup ∧
      ∀ a ∈ prevN, a ∉ restN := by
  rw [List.nodup_append] at h
  obtain ⟨h1, h2, h3⟩ := h
  rw [List.nodup_cons] at h1
  refine ⟨fun hx => h1.1 hx, fun hx => h3 (List.mem_cons_self n prevN) hx,
    h1.2, h2, fun a ha hx => h3 (List.mem_cons_of_mem n ha) hx⟩

/-! ## Membership lemmas for classification -/

theorem labelNodes_self_mem : ∀ l : Label, l ∈ labelNodes l := by
  intro l
  cases l
  rw [labelNodes_mk]
  exact List.mem_cons_self _ _

theorem mem_forestNodes_of_mem : ∀ {ls : List Label} {l : Label}, l ∈ ls →
    l ∈ forestNodes ls := by
  intro ls l h
  induction ls with
  | nil => simp at h
  | cons x rest ih =>
      rw [forestNodes_cons]
      rcases List.mem_cons.mp h with heq | hmem
      · subst heq
        exact List.mem_append_left _ (labelNodes_self_mem l)
      · exact List.mem_append_right _ (ih hmem)

theorem classify_required_mem : ∀ (ls : List Label) (cl : Classified) (now : Int),
    (forestNames ls).Nodup → ∀ l ∈ ls, Label.deleteAfter l = none →
    lookupA (classifyLabels ls cl now none).required (strToLower (Label.name l)) = some l
  | [], _, _, _, l, hl, _ => absurd hl (List.not_mem_nil l)
  | .mk n c d tg pp ab prev da :: rest, cl, now, hnd, l, hl, hda => by
      rw [forestNames_cons, labelNames_mk] at hnd
      obtain ⟨hnp, hnr, hndp, hndr, hdisj⟩ := nodup_head_decomp hnd
      rcases List.mem_cons.mp hl with heq | hmem
      · subst heq
        have hda2 : da = none := by simpa [Label.deleteAfter] using hda
        subst hda2
        have hstep : lookupA
            (classifyCase cl now none (Label.mk n c d tg pp ab prev none)).required
            (strToLower n) = some (Label.mk n c d tg pp ab prev none) := by
          simp [classifyCase, Label.name, Label.deleteAfter, lookupA_mapSet]
        have f1 := classify_frame prev
          (classifyCase cl now none (Label.mk n c d tg pp ab prev none)) now
          (parentFirst none (Label.mk n c d tg pp ab prev none)) (strToLower n) hnp
        have f2 := classify_frame rest
          (classifyLabels prev
            (classifyCase cl now none (Label.mk n c d tg pp ab prev none)) now
            (parentFirst none (Label.mk n c d tg pp ab prev none)))
          now none (strToLower n) hnr
        simp only [classifyLabels, classifyOne, Label.name]
        rw [f2.1, f1.1]
        exact hstep
      · have ih := classify_required_mem rest
          (classifyLabels prev
            (classifyCase cl now none (Label.mk n c d tg pp ab prev da)) now
            (parentFirst none (Label.mk n c d tg pp ab prev da)))
          now hndr l hmem hda
        simp only [classifyLabels, classifyOne]
        exact ih

theorem classify_dead_mem : ∀ (ls : List Label) (cl : Classified) (now : Int)
    (parent : Option Label), (forestNames ls).Nodup →
    ∀ l ∈ forestNodes ls, ∀ t, Label.deleteAfter l = some t → t < now →
    lookupA (classifyLabels ls cl now parent).dead (strToLower (Label.name l)) = some l
  | [], _, _, _, _, l, hl, _, _, _ => by simp at hl
  | .mk n c d tg pp ab prev da :: rest, cl, now, parent, hnd, l, hl, t, hda, ht => by
      rw [forestNames_cons, labelNames_mk] at hnd
      obtain ⟨hnp, hnr, hndp, hndr, hdisj⟩ := nodup_head_decomp hnd
      rw [forestNodes_cons, labelNodes_mk] at hl
      simp only [List.mem_append, List.mem_cons] at hl
      rcases hl with (heq | hmemp) | hmemr
      · subst heq
        have hda2 : da = some t := by simpa [Label.deleteAfter] using hda
        subst hda2
        have hstep : lookupA
            (classifyCase cl now parent (Label.mk n c d tg pp ab prev (some t))).dead
            (strToLower n) = some (Label.mk n c d tg pp ab prev (some t)) := by
          rcases parent with _ | p <;>
            simp [classifyCase, Label.name, Label.deleteAfter, ht, lookupA_mapSet]
        have f1 := classify_frame prev
          (classifyCase cl now parent (Label.mk n c d tg pp ab prev (some t))) now
          (parentFirst parent (Label.mk n c d tg pp ab prev (some t))) (strToLower n) hnp
        have f2 := classify_frame rest
          (classifyLabels prev
            (classifyCase cl now parent (Label.mk n c d tg pp ab prev (some t))) now
            (parentFirst parent (Label.mk n c d tg pp ab prev (some t))))
          now parent (strToLower n) hnr
        simp only [classifyLabels, classifyOne, Label.name]
        rw [f2.2.2, f1.2.2]
        exact hstep
      · have hkey : (strToLower (Label.name l)) ∈ forestNames prev :=
          name_mem_forestNames hmemp
        have hne : (strToLower (Label.name l)) ≠ (strToLower n) := fun hx => hnp (hx ▸ hkey)
        have hcase := classifyCase_lookup_ne cl now parent
          (Label.mk n c d tg pp ab prev da) (strToLower (Label.name l))
          (by simpa [Label.name] using hne)
        have ih := classify_dead_mem prev
          (classifyCase cl now parent (Label.mk n c d tg pp ab prev da)) now
          (parentFirst parent (Label.mk n c d tg pp ab prev da)) hndp l hmemp t hda ht
        have f2 := classify_frame rest
          (classifyLabels prev
            (classifyCase cl now parent (Label.mk n c d tg pp ab prev da)) now
            (parentFirst parent (Label.mk n c d tg pp ab prev da)))
          now parent (strToLower (Label.name l)) (fun hx => hdisj _ hkey hx)
        simp only [classifyLabels, classifyOne]
        rw [f2.2.2]
        exact ih
      · have ih := classify_dead_mem rest
          (classifyLabels prev
            (classifyCase cl now parent (Label.mk n c d tg pp ab prev da)) now
            (parentFirst parent (Label.mk n c d tg pp ab prev da)))
          now parent hndr l hmemr t hda ht
        simp only [classifyLabels, classifyOne]
        exact ih

theorem classify_archaic_sub : ∀ (ls : List Label) (cl : Classified) (now : Int)
    (r : Label), (forestNames ls).Nodup → ∀ d ∈ forestNodes ls,
    (∀ t, Label.deleteAfter d = some t → ¬ t < now) →
    lookupA (classifyLabels ls cl now (some r)).archaic (strToLower (Label.name d)) =
      some ⟨d, r⟩
  | [], _, _, _, _, d, hd, _ => by simp at hd
  | .mk n c dd tg pp ab prev da :: rest, cl, now, r, hnd, d, hd, hlive => by
      rw [forestNames_cons, labelNames_mk] at hnd
      obtain ⟨hnp, hnr, hndp, hndr, hdisj⟩ := nodup_head_decomp hnd
      rw [forestNodes_cons, labelNodes_mk] at hd
      simp only [List.mem_append, List.mem_cons] at hd
      rcases hd with (heq | hmemp) | hmemr
      · subst heq
        have hstep : lookupA
            (classifyCase cl now (some r) (Label.mk n c dd tg pp ab prev da)).archaic
            (strToLower n) = some ⟨Label.mk n c dd tg pp ab prev da, r⟩ := by
          rcases hda : da with _ | t
          · simp [classifyCase, Label.name, Label.deleteAfter, lookupA_mapSet]
          · have hnlt : ¬ t < now := hlive t (by simp [Label.deleteAfter, hda])
            simp [classifyCase, Label.name, Label.deleteAfter, hnlt, lookupA_mapSet]
        have f1 := classify_frame prev
          (classifyCase cl now (some r) (Label.mk n c dd tg pp ab prev da)) now
          (parentFirst (some r) (Label.mk n c dd tg pp ab prev da)) (strToLower n) hnp
        have f2 := classify_frame rest
          (classifyLabels prev
            (classifyCase cl now (some r) (Label.mk n c dd tg pp ab prev da)) now
            (parentFirst (some r) (Label.mk n c dd tg pp ab prev da)))
          now (some r) (strToLower n) hnr
        simp only [classifyLabels, classifyOne, Label.name]
        rw [f2.2.1, f1.2.1]
        exact hstep
      · have hkey : (strToLower (Label.name d)) ∈ forestNames prev :=
          name_mem_forestNames hmemp
        have hne : (strToLower (Label.name d)) ≠ (strToLower n) := fun hx => hnp (hx ▸ hkey)
        have hcase := classifyCase_lookup_ne cl now (some r)
          (Label.mk n c dd tg pp ab prev da) (strToLower (Label.name d))
          (by simpa [Label.name] using hne)
        have hpf : parentFirst (some r) (Label.mk n c dd tg pp ab prev da) = some r := by
          simp [parentFirst]
        have ih := classify_archaic_sub prev
          (classifyCase cl now (some r) (Label.mk n c dd tg pp ab prev da)) now r
          hndp d hmemp hlive
        have f2 := classify_frame rest
          (classifyLabels prev
            (classifyCase cl now (some r) (Label.mk n c dd tg pp ab prev da)) now
            (parentFirst (some r) (Label.mk n c dd tg pp ab prev da)))
          now (some r) (strToLower (Label.name d)) (fun hx => hdisj _ hkey hx)
        simp only [classifyLabels, classifyOne]
        rw [f2.2.1, hpf]
        exact ih
      · have ih := classify_archaic_sub rest
          (classifyLabels prev
            (classifyCase cl now (some r) (Label.mk n c dd tg pp ab prev da)) now
            (parentFirst (some r) (Label.mk n c dd tg pp ab prev da)))
          now r hndr d hmemr hlive
        simp only [classifyLabels, classifyOne]
        exact ih

theorem classify_archaic_top : ∀ (ls : List Label) (cl : Classified) (now : Int),
    (forestNames ls).Nodup → ∀ x ∈ ls, ∀ d ∈ forestNodes (Label.previously x),
    (∀ t, Label.deleteAfter d = some t → ¬ t < now) →
    lookupA (classifyLabels ls cl now none).archaic (strToLower (Label.name d)) =
      some ⟨d, x⟩
  | [], _, _, _, x, hx, _, _, _ => absurd hx (List.not_mem_nil x)
  | .mk n c dd tg pp ab prev da :: rest, cl, now, hnd, x, hx, d, hd, hlive => by
      rw [forestNames_cons, labelNames_mk] at hnd
      obtain ⟨hnp, hnr, hndp, hndr, hdisj⟩ := nodup_head_decomp hnd
      rcases List.mem_cons.mp hx with heq | hmem
      · subst heq
        rw [Label.previously] at hd
        have hkey : (strToLower (Label.name d)) ∈ forestNames prev :=
          name_mem_forestNames hd
        have hne : (strToLower (Label.name d)) ≠ (strToLower n) := fun hx2 => hnp (hx2 ▸ hkey)
        have hcase := classifyCase_lookup_ne cl now none
          (Label.mk n c dd tg pp ab prev da) (strToLower (Label.name d))
          (by simpa [Label.name] using hne)
        have hpf : parentFirst none (Label.mk n c dd tg pp ab prev da) =
            some (Label.mk n c dd tg pp ab prev da) := by
          simp [parentFirst]
        have ih := classify_archaic_sub prev
          (classifyCase cl now none (Label.mk n c dd tg pp ab prev da)) now
          (Label.mk n c dd tg pp ab prev da) hndp d hd hlive
        have f2 := classify_frame rest
          (classifyLabels prev
            (classifyCase cl now none (Label.mk n c dd tg pp ab prev da)) now
            (parentFirst none (Label.mk n c dd tg pp ab prev da)))
          now none (strToLower (Label.name d)) (fun hx2 => hdisj _ hkey hx2)
        simp only [classifyLabels, classifyOne]
        rw [f2.2.1, hpf]
        exact ih
      · have ih := classify_archaic_top rest
          (classifyLabels prev
            (classifyCase cl now none (Label.mk n c dd tg pp ab prev da)) now
            (parentFirst none (Label.mk n c dd tg pp ab prev da)))
          now hndr x hmem d hd hlive
        simp only [classifyLabels, classifyOne]
        exact ih

theorem classify_top_future_untouched : ∀ (ls : List Label) (cl : Classified)
    (now : Int), (forestNames ls).Nodup →
    ∀ l ∈ ls, ∀ t, Label.deleteAfter l = some t → ¬ t < now →
    lookupA (classifyLabels ls cl now none).required (strToLower (Label.name l)) =
      lookupA cl.required (strToLower (Label.name l)) ∧
    lookupA (classifyLabels ls cl now none).archaic (strToLower (Label.name l)) =
      lookupA cl.archaic (strToLower (Label.name l)) ∧
    lookupA (classifyLabels ls cl now none).dead (strToLower (Label.name l)) =
      lookupA cl.dead (strToLower (Label.name l))
  | [], _, _, _, l, hl, _, _, _ => absurd hl (List.not_mem_nil l)
  | .mk n c d tg pp ab prev da :: rest, cl, now, hnd, l, hl, t, hda, ht => by
      rw [forestNames_cons, labelNames_mk] at hnd
      obtain ⟨hnp, hnr, hndp, hndr, hdisj⟩ := nodup_head_decomp hnd
      rcases List.mem_cons.mp hl with heq | hmem
      · subst heq
        have hda2 : da = some t := by simpa [Label.deleteAfter] using hda
        subst hda2
        have hstep : classifyCase cl now none (Label.mk n c d tg pp ab prev (some t)) =
            cl := by
          simp [classifyCase, Label.deleteAfter, ht]
        have f1 := classify_frame prev
          (classifyCase cl now none (Label.mk n c d tg pp ab prev (some t))) now
          (parentFirst none (Label.mk n c d tg pp ab prev (some t))) (strToLower n) hnp
        have f2 := classify_frame rest
          (classifyLabels prev
            (classifyCase cl now none (Label.mk n c d tg pp ab prev (some t))) now
            (parentFirst none (Label.mk n c d tg pp ab prev (some t))))
          now none (strToLower n) hnr
        simp only [classifyLabels, classifyOne, Label.name]
        rw [f2.1, f1.1, f2.2.1, f1.2.1, f2.2.2, f1.2.2, hstep]
        exact ⟨rfl, rfl, rfl⟩
      · have hkey : (strToLower (Label.name l)) ∈ forestNames rest :=
          name_mem_forestNames (mem_forestNodes_of_mem hmem)
        have hne : (strToLower (Label.name l)) ≠ (strToLower n) := fun hx => hnr (hx ▸ hkey)
        have hcase := classifyCase_lookup_ne cl now none
          (Label.mk n c d tg pp ab prev da) (strToLower (Label.name l))
          (by simpa [Label.name] using hne)
        have f1 := classify_frame prev
          (classifyCase cl now none (Label.mk n c d tg pp ab prev da)) now
          (parentFirst none (Label.mk n c d tg pp ab prev da))
          (strToLower (Label.name l)) (fun hx => hdisj _ hx hkey)
        have ih := classify_top_future_untouched rest
          (classifyLabels prev
            (classifyCase cl now none (Label.mk n c d tg pp ab prev da)) now
            (parentFirst none (Label.mk n c d tg pp ab prev da)))
          now hndr l hmem t hda ht
        simp only [classifyLabels, classifyOne]
        exact ⟨by rw [ih.1, f1.1, hcase.1],
          by rw [ih.2.1, f1.2.1, hcase.2.1],
          by rw [ih.2.2, f1.2.2, hcase.2.2]⟩

/-! ## Claim C1 -/

/-- C1: for every label tree satisfying the uniqueness invariant and
every time `now`, `ClassifyLabels` places each top-level node with no
retirement date into `required`; each node at any depth whose
`DeleteAfter` is strictly before `now` into `dead`; and every other node
that has a non-nil ancestor into `archaic` with its back-reference set
to the top-level ancestor of its chain. -/
theorem classifyLabels_partition (ls : List Label) (now : Int)
    (hnd : (forestNames ls).Nodup) :
    (∀ l ∈ ls, Label.deleteAfter l = none →
      lookupA (classifyLabels ls ⟨[], [], []⟩ now none).required
        (strToLower (Label.name l)) = some l) ∧
    (∀ l ∈ forestNodes ls, ∀ t, Label.deleteAfter l = some t → t < now →
      lookupA (classifyLabels ls ⟨[], [], []⟩ now none).dead
        (strToLower (Label.name l)) = some l) ∧
    (∀ x ∈ ls, ∀ d ∈ forestNodes (Label.previously x),
      (∀ t, Label.deleteAfter d = some t → ¬ t < now) →
      lookupA (classifyLabels ls ⟨[], [], []⟩ now none).archaic
        (strToLower (Label.name d)) = some ⟨d, x⟩) :=
  ⟨fun l hl hda => classify_required_mem ls ⟨[], [], []⟩ now hnd l hl hda,
   fun l hl t hda ht => classify_dead_mem ls ⟨[], [], []⟩ now none hnd l hl t hda ht,
   fun x hx d hd hlive => classify_archaic_top ls ⟨[], [], []⟩ now hnd x hx d hd hlive⟩

/-- Witness for C1 on the two-label tree `[labelTriage, labelOld]` at
time 10: the live root is required, the expired root is dead, and the
historical name is archaic with the root as its back-reference. -/
theorem classifyLabels_partition_witness :
    (forestNames [labelTriage, labelOld]).Nodup ∧
    lookupA (classifyLabels [labelTriage, labelOld] ⟨[], [], []⟩ 10 none).required
      "triage/needs-information" = some labelTriage ∧
    lookupA (classifyLabels [labelTriage, labelOld] ⟨[], [], []⟩ 10 none).dead
      "old" = some labelOld ∧
    lookupA (classifyLabels [labelTriage, labelOld] ⟨[], [], []⟩ 10 none).archaic
      "needs-sig" = some archaicNeedsSig := by
  have hnd : (forestNames [labelTriage, labelOld]).Nodup := by decide
  have h := classifyLabels_partition [labelTriage, labelOld] 10 hnd
  refine ⟨hnd, ?_, ?_, ?_⟩
  · have h1 := h.1 labelTriage (List.mem_cons_self _ _) rfl
    have hk : (strToLower (Label.name labelTriage)) = "triage/needs-information" := by
      decide
    rw [hk] at h1
    exact h1
  · have h2 := h.2.1 labelOld (by decide) 5 rfl (by norm_num)
    have hk : (strToLower (Label.name labelOld)) = "old" := by decide
    rw [hk] at h2
    exact h2
  · have h3 := h.2.2 labelTriage (List.mem_cons_self _ _)
      (Label.mk "needs-sig" "ff0000" "d" "" "" "" [] none) (by decide)
      (by intro t ht; simp [Label.deleteAfter] at ht)
    have hk : (strToLower (Label.name (Label.mk "needs-sig" "ff0000" "d" "" "" "" [] none)))
        = "needs-sig" := by decide
    rw [hk] at h3
    exact h3

/-! ## Claim C9 -/

/-- C9: for every time `now`, a top-level label whose retirement
timestamp has not yet passed is placed by `ClassifyLabels` into none of
the three sets. -/
theorem classifyLabels_future_retire_unclassified (ls : List Label) (now : Int)
    (hnd : (forestNames ls).Nodup) (l : Label) (hl : l ∈ ls) (t : Int)
    (hda : Label.deleteAfter l = some t) (ht : ¬ t < now) :
    lookupA (classifyLabels ls ⟨[], [], []⟩ now none).required
      (strToLower (Label.name l)) = none ∧
    lookupA (classifyLabels ls ⟨[], [], []⟩ now none).archaic
      (strToLower (Label.name l)) = none ∧
    lookupA (classifyLabels ls ⟨[], [], []⟩ now none).dead
      (strToLower (Label.name l)) = none := by
  have h := classify_top_future_untouched ls ⟨[], [], []⟩ now hnd l hl t hda ht
  exact ⟨by rw [h.1]; rfl, by rw [h.2.1]; rfl, by rw [h.2.2]; rfl⟩

/-- Witness for C9: the label `old` retiring at time 5, classified at
time 0, lands in none of the three maps. -/
theorem classifyLabels_future_retire_unclassified_witness :
    (forestNames [labelOld]).Nodup ∧
    lookupA (classifyLabels [labelOld] ⟨[], [], []⟩ 0 none).required "old" = none ∧
    lookupA (classifyLabels [labelOld] ⟨[], [], []⟩ 0 none).archaic "old" = none ∧
    lookupA (classifyLabels [labelOld] ⟨[], [], []⟩ 0 none).dead "old" = none := by
  have hnd : (forestNames [labelOld]).Nodup := by decide
  have h := classifyLabels_future_retire_unclassified [labelOld] 0 hnd labelOld
    (List.mem_cons_self _ _) 5 rfl (by norm_num)
  have hk : (strToLower (Label.name labelOld)) = "old" := by decide
  rw [hk] at h
  exact ⟨hnd, h.1, h.2.1, h.2.2⟩

/-! ## Soundness of `validate` -/

/-- If `validate` succeeds then the forest's lowercase names are
duplicate-free and fresh with respect to `seen`, and the returned map
binds exactly the old keys plus the forest's names. -/
theorem validate_ok_nodup : ∀ (ls : List Label) (p : String)
    (seen s : List (String × String)), validate ls p seen = .ok s →
    (forestNames ls).Nodup ∧
    (∀ k ∈ forestNames ls, lookupA seen k = none) ∧
    (∀ k, lookupA s k = none ↔ (lookupA seen k = none ∧ k ∉ forestNames ls))
  | [], _, seen, s, h => by
      simp only [validate, validateOne] at h
      injection h with h2
      subst h2
      simp
  | Label.mk n c d tg pp ab prev da :: rest, p, seen, s, h => by
      simp only [validate, validateOne] at h
      cases hseen : lookupA seen (strToLower n) with
      | some other =>
          simp only [hseen] at h
          exact Except.noConfusion h
      | none =>
          simp only [hseen] at h
          cases hprev : validate prev (p ++ "." ++ strToLower n)
              (mapSet seen (strToLower n) (p ++ "." ++ strToLower n)) with
          | error e2 =>
              simp only [hprev] at h
              exact Except.noConfusion h
          | ok s2 =>
              simp only [hprev] at h
              have ih1 := validate_ok_nodup prev (p ++ "." ++ strToLower n)
                (mapSet seen (strToLower n) (p ++ "." ++ strToLower n)) s2 hprev
              have ih2 := validate_ok_nodup rest p s2 s h
              have hs1l : lookupA
                  (mapSet seen (strToLower n) (p ++ "." ++ strToLower n))
                  (strToLower n) = some (p ++ "." ++ strToLower n) := by
                rw [lookupA_mapSet]
                simp
              have ha : strToLower n ∉ forestNames prev := fun hx => by
                have h2 := ih1.2.1 (strToLower n) hx
                rw [hs1l] at h2
                exact Option.noConfusion h2
              have hc1 : strToLower n ∉ forestNames rest := fun hx => by
                have h2 := ih2.2.1 (strToLower n) hx
                have h3 := (ih1.2.2 (strToLower n)).mp h2
                rw [hs1l] at h3
                exact Option.noConfusion h3.1
              have hb : ∀ k ∈ forestNames prev, lookupA seen k = none := by
                intro k hk
                have h2 := ih1.2.1 k hk
                rw [lookupA_mapSet] at h2
                by_cases hkn : strToLower n = k
                · rw [if_pos hkn] at h2
                  exact Option.noConfusion h2
                · rwa [if_neg hkn] at h2
              have hd2 : ∀ k ∈ forestNames rest,
                  lookupA seen k = none ∧ k ∉ forestNames prev ∧
                  k ≠ strToLower n := by
                intro k hk
                have h2 := ih2.2.1 k hk
                have h3 := (ih1.2.2 k).mp h2
                rw [lookupA_mapSet] at h3
                obtain ⟨h4, h5⟩ := h3
                by_cases hkn : strToLower n = k
                · rw [if_pos hkn] at h4
                  exact Option.noConfusion h4
                · rw [if_neg hkn] at h4
                  exact ⟨h4, h5, fun he => hkn he.symm⟩
              refine ⟨?_, ?_, ?_⟩
              · rw [forestNames_cons, labelNames_mk, List.nodup_append]
                refine ⟨List.nodup_cons.mpr ⟨ha, ih1.1⟩, ih2.1, ?_⟩
                intro a haa har
                rcases List.mem_cons.mp haa with heq | hmem
                · exact hc1 (heq ▸ har)
                · exact (hd2 a har).2.1 hmem
              · intro k hk
                rw [forestNames_cons, labelNames_mk] at hk
                rcases List.mem_append.mp hk with hk1 | hk2
                · rcases List.mem_cons.mp hk1 with heq | hmem
                  · exact heq ▸ hseen
                  · exact hb k hmem
                · exact (hd2 k hk2).1
              · intro k
                rw [ih2.2.2 k, ih1.2.2 k, lookupA_mapSet, forestNames_cons,
                  labelNames_mk]
                simp only [List.mem_cons, List.mem_append, not_or]
                by_cases hkn : strToLower n = k
                · rw [if_pos hkn]
                  simp [hkn.symm]
                · rw [if_neg hkn]
                  have hkn2 : ¬ k = strToLower n := fun he => hkn he.symm
                  tauto

/-! ## Claim C4 -/

/-- C4: a configuration with two nodes anywhere in the tree sharing a
lowercase name makes `SyncLabels` fail with an error before any action
is computed, for every repository snapshot (the error return carries no
updates). -/
theorem syncLabels_config_dup_error (config : Configuration)
    (repos : List (String × List GhLabel)) (now : Int)
    (hdup : ¬ (forestNames config.labels).Nodup) :
    ∃ e, syncLabels config repos now = .error e := by
  cases hv : validate config.labels "" [] with
  | ok s => exact absurd (validate_ok_nodup config.labels "" [] s hv).1 hdup
  | error e =>
      refine ⟨"invalid config: " ++ ("invalid config: " ++ e), ?_⟩
      simp [syncLabels, Configuration.validateConfig, hv]

/-- Witness for C4: a configuration containing both `bug` and `BUG`
fails. -/
theorem syncLabels_config_dup_error_witness :
    ¬ (forestNames cfgDup.labels).Nodup ∧
    ∃ e, syncLabels cfgDup [("r", [])] 0 = .error e :=
  ⟨by decide, syncLabels_config_dup_error cfgDup [("r", [])] 0 (by decide)⟩

/-! ## The migrate sub-protocol of the applier -/

/-- The calls of the per-issue migrate loop are the concatenation of the
per-issue call lists. -/
theorem migrate_fold_calls (gc : Client) (org repo w c : String) :
    ∀ (issues : List Int) (acc : List Call × List String),
    (issues.foldl (migrateIssueStep gc org repo w c) acc).1 =
      acc.1 ++ issues.flatMap (migrateIssueCalls gc org repo w c) := by
  intro issues
  induction issues with
  | nil => intro acc; simp
  | cons i rest ih =>
      intro acc
      rw [List.foldl_cons, ih, List.flatMap_cons]
      cases hadd : gc.addLabel org repo i w with
      | some e => simp [migrateIssueStep, migrateIssueCalls, hadd]
      | none =>
          cases hrem : gc.removeLabel org repo i c with
          | some e => simp [migrateIssueStep, migrateIssueCalls, hadd, hrem]
          | none => simp [migrateIssueStep, migrateIssueCalls, hadd, hrem]

/-- No per-issue migrate call is a repo-label deletion. -/
theorem migrateIssueCalls_no_delete (gc : Client) (org repo w c : String)
    (i : Int) (o r2 lb : String) :
    Call.deleteRepoLabel o r2 lb ∉ migrateIssueCalls gc org repo w c i := by
  unfold migrateIssueCalls
  cases gc.addLabel org repo i w <;> simp

/-! ## Claim C3 -/

/-- C3: for a `migrate` update whose issue query succeeds: with zero
issues the applier makes exactly the query and one delete of
`current.name`; with issues it makes, per issue in order, an add of
`wanted.name` followed by a remove of `current.name`, where a failed add
skips that issue's remove but later issues are still processed, and no
delete call is made. -/
theorem doUpdate_migrate_protocol (gc : Client) (org repo : String)
    (u : Update) (w c : Label) (issues : List Int)
    (hw : u.wanted = some w) (hc : u.current = some c) (hy : u.why = "migrate")
    (hf : gc.findIssues (migrateQuery org repo (Label.name c) (Label.name w)) =
      (issues, none)) :
    (issues = [] →
      (doUpdate gc org repo u).1 =
        [Call.findIssues (migrateQuery org repo (Label.name c) (Label.name w)),
         Call.deleteRepoLabel org repo (Label.name c)]) ∧
    (issues ≠ [] →
      (doUpdate gc org repo u).1 =
        Call.findIssues (migrateQuery org repo (Label.name c) (Label.name w)) ::
          issues.flatMap
            (migrateIssueCalls gc org repo (Label.name w) (Label.name c)) ∧
      ∀ o r2 lb, Call.deleteRepoLabel o r2 lb ∉ (doUpdate gc org repo u).1) := by
  have h1 : ("migrate" : String) = "missing" ↔ False := by simp
  have h2 : (("migrate" : String) = "change" ∨ ("migrate" : String) = "rename")
      ↔ False := by simp
  have h3 : ("migrate" : String) = "dead" ↔ False := by simp
  simp only [doUpdate, hw, hc, hy, Option.getD_some, h1, h2, h3, if_false,
    if_true, if_pos rfl, hf]
  constructor
  · intro h0
    subst h0
    cases hdel : gc.deleteRepoLabel org repo (Label.name c) <;>
      simp [hdel, migrate_fold_calls]
  · intro h0
    rw [if_neg h0]
    constructor
    · simp [migrate_fold_calls]
    · intro o r2 lb hmem
      simp only [migrate_fold_calls, List.nil_append, List.mem_cons,
        List.mem_flatMap] at hmem
      rcases hmem with hq | ⟨a, _, hcall⟩
      · exact Call.noConfusion hq
      · exact migrateIssueCalls_no_delete gc org repo (Label.name w)
          (Label.name c) a o r2 lb hcall

/-- Witness for C3 on `witClient`: issues 1 and 2 are found, the add for
issue 2 fails, so its remove is skipped while issue 1 gets add then
remove, and no delete call is made. -/
theorem doUpdate_migrate_protocol_witness :
    witClient.findIssues (migrateQuery "o" "r" "needs-sig"
      "triage/needs-information") = ([1, 2], none) ∧
    (doUpdate witClient "o" "r" migUpdate).1 =
      [Call.findIssues (migrateQuery "o" "r" "needs-sig"
        "triage/needs-information"),
       Call.addLabel "o" "r" 1 "triage/needs-information",
       Call.removeLabel "o" "r" 1 "needs-sig",
       Call.addLabel "o" "r" 2 "triage/needs-information"] := by
  have h := doUpdate_migrate_protocol witClient "o" "r" migUpdate
    (Label.mk "triage/needs-information" "aa0000" "d" "" "" "" [] none)
    (Label.mk "needs-sig" "ff0000" "d" "" "" "" [] none)
    [1, 2] rfl rfl rfl rfl
  have h2 := (h.2 (by simp)).1
  refine ⟨rfl, ?_⟩
  rw [h2]
  rfl

/-! ## Claim C10 -/

/-- C10: when the issue query of a `migrate` update fails (returning a
nil issue list and an error, as the Go clients do), the applier records
the error but still takes the zero-issues branch and deletes
`current.name`: the deletion is not guarded on the query having
succeeded. -/
theorem doUpdate_migrate_query_error (gc : Client) (org repo : String)
    (u : Update) (w c : Label) (e : String)
    (hw : u.wanted = some w) (hc : u.current = some c) (hy : u.why = "migrate")
    (hf : gc.findIssues (migrateQuery org repo (Label.name c) (Label.name w)) =
      ([], some e)) :
    (doUpdate gc org repo u).1 =
      [Call.findIssues (migrateQuery org repo (Label.name c) (Label.name w)),
       Call.deleteRepoLabel org repo (Label.name c)] ∧
    e ∈ (doUpdate gc org repo u).2 := by
  have h1 : ("migrate" : String) = "missing" ↔ False := by simp
  have h2 : (("migrate" : String) = "change" ∨ ("migrate" : String) = "rename")
      ↔ False := by simp
  have h3 : ("migrate" : String) = "dead" ↔ False := by simp
  simp only [doUpdate, hw, hc, hy, Option.getD_some, h1, h2, h3, if_false,
    if_true, if_pos rfl, hf]
  cases hdel : gc.deleteRepoLabel org repo (Label.name c) <;> simp [hdel]

/-- Witness for C10 on `errClient`: the query error is recorded and the
old label is deleted anyway. -/
theorem doUpdate_migrate_query_error_witness :
    errClient.findIssues (migrateQuery "o" "r" "needs-sig"
      "triage/needs-information") = ([], some "query failed") ∧
    (doUpdate errClient "o" "r" migUpdate).1 =
      [Call.findIssues (migrateQuery "o" "r" "needs-sig"
        "triage/needs-information"),
       Call.deleteRepoLabel "o" "r" "needs-sig"] ∧
    "query failed" ∈ (doUpdate errClient "o" "r" migUpdate).2 := by
  have h := doUpdate_migrate_query_error errClient "o" "r" migUpdate
    (Label.mk "triage/needs-information" "aa0000" "d" "" "" "" [] none)
    (Label.mk "needs-sig" "ff0000" "d" "" "" "" [] none)
    "query failed" rfl rfl rfl rfl
  exact ⟨rfl, h.1, h.2⟩

/-! ## Claim C2 -/

/-- C2: when a repository's current set contains an archaic name, the
archaic pass emits a `migrate` action if the migration target name is
already present in `current`, and otherwise emits a `rename` action from
the archaic label to the target and records the target name in
`current`, so the subsequent required pass cannot emit a `missing`
action for that name. -/
theorem archaicStep_migrate_or_rename (repo name : String) (al : ArchaicLabel)
    (actions moves : List Update) (current : List (String × Label))
    (cur : Label) (hcur : lookupA current name = some cur) :
    ((∃ x, lookupA current (strToLower (Label.name al.parent)) = some x) →
      archaicStep repo (actions, moves, current) (name, al) =
        (actions,
         moves ++ [move repo cur (Label.mk (Label.name al.parent)
           (Label.color al.parent) (Label.description al.label) "" "" "" [] none)],
         current)) ∧
    (lookupA current (strToLower (Label.name al.parent)) = none →
      archaicStep repo (actions, moves, current) (name, al) =
        (actions ++ [rename repo cur (Label.mk (Label.name al.parent)
           (Label.color al.parent) (Label.description al.label) "" "" "" [] none)],
         moves,
         mapSet current (strToLower (Label.name al.parent))
           (Label.mk (Label.name al.parent) (Label.color al.parent)
             (Label.description al.label) "" "" "" [] none)) ∧
      ∀ (req : Label) (acc : List Update) (u2 : Update),
        u2 ∈ requiredStep repo
          (mapSet current (strToLower (Label.name al.parent))
            (Label.mk (Label.name al.parent) (Label.color al.parent)
              (Label.description al.label) "" "" "" [] none))
          acc (strToLower (Label.name al.parent), req) →
        u2 ∈ acc ∨ u2.why ≠ "missing") := by
  constructor
  · rintro ⟨x, hx⟩
    simp [archaicStep, hcur, hx]
  · intro hnone
    constructor
    · simp [archaicStep, hcur, hnone]
    · intro req acc u2 hmem
      have hlook : lookupA
          (mapSet current (strToLower (Label.name al.parent))
            (Label.mk (Label.name al.parent) (Label.color al.parent)
              (Label.description al.label) "" "" "" [] none))
          (strToLower (Label.name al.parent)) =
          some (Label.mk (Label.name al.parent) (Label.color al.parent)
            (Label.description al.label) "" "" "" [] none) := by
        rw [lookupA_mapSet]
        simp
      simp only [requiredStep, hlook] at hmem
      split at hmem
      · rcases List.mem_append.mp hmem with hin | hin
        · exact Or.inl hin
        · simp only [List.mem_singleton] at hin
          subst hin
          exact Or.inr (by simp [rename])
      · split at hmem
        · rcases List.mem_append.mp hmem with hin | hin
          · exact Or.inl hin
          · simp only [List.mem_singleton] at hin
            subst hin
            exact Or.inr (by simp [change])
        · split at hmem
          · rcases List.mem_append.mp hmem with hin | hin
            · exact Or.inl hin
            · simp only [List.mem_singleton] at hin
              subst hin
              exact Or.inr (by simp [change])
          · exact Or.inl hmem

/-- Witness for C2 on the needs-sig example: with only `needs-sig`
present the step emits the rename and records the target; with both
names present it emits the migrate instead. -/
theorem archaicStep_migrate_or_rename_witness :
    lookupA curNS "needs-sig" = some (ghToLabel needsSigGh) ∧
    archaicStep "r" ([], [], curNS) ("needs-sig", archaicNeedsSig) =
      ([rename "r" (ghToLabel needsSigGh) desiredNS], [],
        mapSet curNS "triage/needs-information" desiredNS) ∧
    archaicStep "r" ([], [], curBoth) ("needs-sig", archaicNeedsSig) =
      ([], [move "r" (ghToLabel needsSigGh) desiredNS], curBoth) := by
  have h := archaicStep_migrate_or_rename "r" "needs-sig" archaicNeedsSig
    [] [] curNS (ghToLabel needsSigGh) (by decide)
  have h2 := archaicStep_migrate_or_rename "r" "needs-sig" archaicNeedsSig
    [] [] curBoth (ghToLabel needsSigGh) (by decide)
  have e1 := (h.2 (by decide)).1
  have e2 := h2.1 ⟨ghToLabel tniGh, by decide⟩
  refine ⟨by decide, ?_, ?_⟩
  · rw [e1]
    decide
  · rw [e2]
    decide

/-! ## Structure of the flat action list -/

/-- The repo loop is an append homomorphism in both the action and the
error component. -/
theorem syncFold_hom (cl : Classified) :
    ∀ (repos : List (String × List GhLabel)) (A : List Update) (E : List String),
    repos.foldl (syncRepoStep cl) (A, E) =
      (A ++ (repos.foldl (syncRepoStep cl) ([], [])).1,
       E ++ (repos.foldl (syncRepoStep cl) ([], [])).2) := by
  intro repos
  induction repos with
  | nil => intro A E; simp
  | cons r rest ih =>
      intro A E
      rw [List.foldl_cons, List.foldl_cons]
      cases hr : syncRepo cl r.1 r.2 with
      | error e =>
          rw [show syncRepoStep cl (A, E) r = (A, E ++ [e]) by
              simp [syncRepoStep, hr],
            show syncRepoStep cl ([], []) r = ([], [e]) by
              simp [syncRepoStep, hr],
            ih A (E ++ [e]), ih [] [e]]
          simp
      | ok acts =>
          rw [show syncRepoStep cl (A, E) r = (A ++ acts, E) by
              simp [syncRepoStep, hr],
            show syncRepoStep cl ([], []) r = (acts, []) by
              simp [syncRepoStep, hr],
            ih (A ++ acts) E, ih acts []]
          simp

/-- The flat action list is the concatenation of the per-repository
contributions, in repo order. -/
theorem syncFold_flat (cl : Classified) :
    ∀ repos : List (String × List GhLabel),
    (repos.foldl (syncRepoStep cl) ([], [])).1 =
      repos.flatMap (repoActions cl) := by
  intro repos
  induction repos with
  | nil => simp
  | cons r rest ih =>
      rw [List.foldl_cons, List.flatMap_cons]
      cases hr : syncRepo cl r.1 r.2 with
      | error e =>
          rw [show syncRepoStep cl ([], []) r = ([], [e]) by
            simp [syncRepoStep, hr], syncFold_hom cl rest [] [e]]
          simp [repoActions, hr, ih]
      | ok acts =>
          rw [show syncRepoStep cl ([], []) r = (acts, []) by
            simp [syncRepoStep, hr], syncFold_hom cl rest acts []]
          simp [repoActions, hr, ih]

/-- Every action added by the dead-label pass is a `dead` action for
this repository. -/
theorem buildCurrent_mem (repo : String) (dead : List (String × Label)) :
    ∀ (labels : List Label) (acc : List Update × List (String × Label))
      (a : Update), a ∈ (labels.foldl (buildCurrentStep repo dead) acc).1 →
    a ∈ acc.1 ∨ (a.why = "dead" ∧ a.repo = repo) := by
  intro labels
  induction labels with
  | nil => intro acc a ha; exact Or.inl ha
  | cons l rest ih =>
      intro acc a ha
      rw [List.foldl_cons] at ha
      rcases ih (buildCurrentStep repo dead acc l) a ha with hin | hnew
      · cases hd : lookupA dead (strToLower (Label.name l)) with
        | some x =>
            simp only [buildCurrentStep, hd] at hin
            rcases List.mem_append.mp hin with hin2 | hin2
            · exact Or.inl hin2
            · simp only [List.mem_singleton] at hin2
              subst hin2
              exact Or.inr ⟨rfl, rfl⟩
        | none =>
            simp only [buildCurrentStep, hd] at hin
            exact Or.inl hin
      · exact Or.inr hnew

/-- Every action the archaic pass appends to the action component is a
`rename`, and every action it queues in the move component is a
`migrate`, both for this repository. -/
theorem archaicFold_mem (repo : String) :
    ∀ (entries : List (String × ArchaicLabel))
      (acc : List Update × List Update × List (String × Label)) (a : Update),
    (a ∈ (entries.foldl (archaicStep repo) acc).1 →
      a ∈ acc.1 ∨ (a.why = "rename" ∧ a.repo = repo)) ∧
    (a ∈ (entries.foldl (archaicStep repo) acc).2.1 →
      a ∈ acc.2.1 ∨ (a.why = "migrate" ∧ a.repo = repo)) := by
  intro entries
  induction entries with
  | nil => intro acc a; exact ⟨Or.inl, Or.inl⟩
  | cons e rest ih =>
      intro acc a
      constructor
      · intro ha
        rw [List.foldl_cons] at ha
        rcases (ih (archaicStep repo acc e) a).1 ha with hin | hnew
        · cases h1 : lookupA acc.2.2 e.1 with
          | none =>
              simp only [archaicStep, h1] at hin
              exact Or.inl hin
          | some cur =>
              cases h2 : lookupA acc.2.2 (strToLower (Label.name e.2.parent)) with
              | some x =>
                  simp only [archaicStep, h1, h2] at hin
                  exact Or.inl hin
              | none =>
                  simp only [archaicStep, h1, h2] at hin
                  rcases List.mem_append.mp hin with hin2 | hin2
                  · exact Or.inl hin2
                  · simp only [List.mem_singleton] at hin2
                    subst hin2
                    exact Or.inr ⟨rfl, rfl⟩
        · exact Or.inr hnew
      · intro ha
        rw [List.foldl_cons] at ha
        rcases (ih (archaicStep repo acc e) a).2 ha with hin | hnew
        · cases h1 : lookupA acc.2.2 e.1 with
          | none =>
              simp only [archaicStep, h1] at hin
              exact Or.inl hin
          | some cur =>
              cases h2 : lookupA acc.2.2 (strToLower (Label.name e.2.parent)) with
              | some x =>
                  simp only [archaicStep, h1, h2] at hin
                  rcases List.mem_append.mp hin with hin2 | hin2
                  · exact Or.inl hin2
                  · simp only [List.mem_singleton] at hin2
                    subst hin2
                    exact Or.inr ⟨rfl, rfl⟩
              | none =>
                  simp only [archaicStep, h1, h2] at hin
                  exact Or.inl hin
        · exact Or.inr hnew

/-- Every action the required pass appends is a `missing`, `rename` or
`change` action for this repository. -/
theorem requiredFold_mem (repo : String) (current : List (String × Label)) :
    ∀ (entries : List (String × Label)) (acc : List Update) (a : Update),
    a ∈ entries.foldl (requiredStep repo current) acc →
    a ∈ acc ∨ ((a.why = "missing" ∨ a.why = "rename" ∨ a.why = "change") ∧
      a.repo = repo) := by
  intro entries
  induction entries with
  | nil => intro acc a ha; exact Or.inl ha
  | cons e rest ih =>
      intro acc a ha
      rw [List.foldl_cons] at ha
      rcases ih (requiredStep repo current acc e) a ha with hin | hnew
      · cases h1 : lookupA current e.1 with
        | none =>
            simp only [requiredStep, h1] at hin
            rcases List.mem_append.mp hin with hin2 | hin2
            · exact Or.inl hin2
            · simp only [List.mem_singleton] at hin2
              subst hin2
              exact Or.inr ⟨Or.inl rfl, rfl⟩
        | some cur =>
            simp only [requiredStep, h1] at hin
            split at hin
            · rcases List.mem_append.mp hin with hin2 | hin2
              · exact Or.inl hin2
              · simp only [List.mem_singleton] at hin2
                subst hin2
                exact Or.inr ⟨Or.inr (Or.inl rfl), rfl⟩
            · split at hin
              · rcases List.mem_append.mp hin with hin2 | hin2
                · exact Or.inl hin2
                · simp only [List.mem_singleton] at hin2
                  subst hin2
                  exact Or.inr ⟨Or.inr (Or.inr rfl), rfl⟩
              · split at hin
                · rcases List.mem_append.mp hin with hin2 | hin2
                  · exact Or.inl hin2
                  · simp only [List.mem_singleton] at hin2
                    subst hin2
                    exact Or.inr ⟨Or.inr (Or.inr rfl), rfl⟩
                · exact Or.inl hin
      · exact Or.inr hnew

/-- Successful per-repository reconciliation: all actions carry this
repository's name, and the list splits into the non-migrate actions
followed by the migrate actions. -/
theorem syncRepo_split (cl : Classified) (repo : String) (ls : List GhLabel)
    (acts : List Update) (h : syncRepo cl repo ls = .ok acts) :
    (∀ a ∈ acts, a.repo = repo) ∧
    ∃ xs ys, acts = xs ++ ys ∧ (∀ a ∈ xs, a.why ≠ "migrate") ∧
      (∀ a ∈ ys, a.why = "migrate") := by
  unfold syncRepo at h
  cases hval : validate (ls.map ghToLabel) "" [] with
  | error e =>
      simp only [hval] at h
      exact Except.noConfusion h
  | ok s =>
      simp only [hval] at h
      injection h with h2
      subst h2
      set labels := ls.map ghToLabel with hlabels
      set built := labels.foldl (buildCurrentStep repo cl.dead) ([], []) with hbuilt
      set afterArchaic := cl.archaic.foldl (archaicStep repo)
        (built.1, [], built.2) with hafter
      have hxs : ∀ a ∈ cl.required.foldl (requiredStep repo afterArchaic.2.2)
          afterArchaic.1, a.why ≠ "migrate" ∧ a.repo = repo := by
        intro a ha
        rcases requiredFold_mem repo afterArchaic.2.2 cl.required
            afterArchaic.1 a ha with hin | hnew
        · rcases (archaicFold_mem repo cl.archaic (built.1, [], built.2) a).1
              hin with hin2 | hnew2
          · rcases buildCurrent_mem repo cl.dead labels ([], []) a hin2 with
              hin3 | hnew3
            · simp at hin3
            · exact ⟨by rw [hnew3.1]; decide, hnew3.2⟩
          · exact ⟨by rw [hnew2.1]; decide, hnew2.2⟩
        · rcases hnew.1 with hw | hw | hw
          · exact ⟨by rw [hw]; decide, hnew.2⟩
          · exact ⟨by rw [hw]; decide, hnew.2⟩
          · exact ⟨by rw [hw]; decide, hnew.2⟩
      have hys : ∀ a ∈ afterArchaic.2.1, a.why = "migrate" ∧ a.repo = repo := by
        intro a ha
        rcases (archaicFold_mem repo cl.archaic (built.1, [], built.2) a).2
            ha with hin | hnew
        · simp at hin
        · exact hnew
      refine ⟨?_, cl.required.foldl (requiredStep repo afterArchaic.2.2)
        afterArchaic.1, afterArchaic.2.1, rfl, fun a ha => (hxs a ha).1,
        fun a ha => (hys a ha).1⟩
      intro a ha
      rcases List.mem_append.mp ha with hin | hin
      · exact (hxs a hin).2
      · exact (hys a hin).2

/-- All actions a repository contributes carry its name. -/
theorem repoActions_repo (cl : Classified) (p : String × List GhLabel) :
    ∀ a ∈ repoActions cl p, a.repo = p.1 := by
  intro a ha
  unfold repoActions at ha
  cases hr : syncRepo cl p.1 p.2 with
  | error e => rw [hr] at ha; simp at ha
  | ok acts =>
      rw [hr] at ha
      exact (syncRepo_split cl p.1 p.2 acts hr).1 a ha

/-! ## The grouping loop -/

@[simp]
theorem actionsFor_nil (r : String) : actionsFor r [] = [] := by
  rw [actionsFor]

theorem actionsFor_cons (r : String) (a : Update) (rest : List Update) :
    actionsFor r (a :: rest) =
      if a.repo = r then a :: actionsFor r rest else actionsFor r rest := by
  rw [actionsFor]

theorem actionsFor_append (r : String) (A B : List Update) :
    actionsFor r (A ++ B) = actionsFor r A ++ actionsFor r B := by
  induction A with
  | nil => simp
  | cons a A2 ih =>
      rw [List.cons_append, actionsFor_cons, actionsFor_cons]
      by_cases hr : a.repo = r <;> simp [hr, ih]

theorem actionsFor_eq_self (r : String) (A : List Update)
    (h : ∀ a ∈ A, a.repo = r) : actionsFor r A = A := by
  induction A with
  | nil => simp
  | cons a A2 ih =>
      rw [actionsFor_cons, if_pos (h a (List.mem_cons_self a A2)),
        ih (fun x hx => h x (List.mem_cons_of_mem a hx))]

theorem actionsFor_eq_nil (r : String) (A : List Update)
    (h : ∀ a ∈ A, a.repo ≠ r) : actionsFor r A = [] := by
  induction A with
  | nil => simp
  | cons a A2 ih =>
      rw [actionsFor_cons, if_neg (h a (List.mem_cons_self a A2)),
        ih (fun x hx => h x (List.mem_cons_of_mem a hx))]

/-- The grouping fold looks up to the new actions for `r` appended to
whatever the accumulator already held for `r`. -/
theorem groupFold_lookup : ∀ (A : List Update) (u0 : RepoUpdates) (r : String),
    lookupA (A.foldl groupStep u0) r =
      if actionsFor r A = [] ∧ lookupA u0 r = none then none
      else some ((lookupA u0 r).getD [] ++ actionsFor r A) := by
  intro A
  induction A with
  | nil =>
      intro u0 r
      cases h : lookupA u0 r <;> simp [actionsFor, h]
  | cons a A2 ih =>
      intro u0 r
      rw [List.foldl_cons, ih, actionsFor_cons]
      by_cases hr : a.repo = r
      · rw [if_pos hr]
        have hstep : lookupA (groupStep u0 a) r =
            some ((lookupA u0 r).getD [] ++ [a]) := by
          unfold groupStep
          rw [lookupA_mapSet, hr, if_pos rfl]
        rw [hstep]
        simp
      · rw [if_neg hr]
        have hstep : lookupA (groupStep u0 a) r = lookupA u0 r := by
          unfold groupStep
          rw [lookupA_mapSet, if_neg hr]
        rw [hstep]

/-- Outside the repo keys no actions exist. -/
theorem actionsFor_flat_not_key (cl : Classified) :
    ∀ (repos : List (String × List GhLabel)) (r : String),
    r ∉ repos.map Prod.fst →
    actionsFor r (repos.flatMap (repoActions cl)) = [] := by
  intro repos
  induction repos with
  | nil => intro r _; rfl
  | cons p rest ih =>
      intro r hr
      simp only [List.map_cons, List.mem_cons, not_or] at hr
      rw [List.flatMap_cons, actionsFor_append,
        actionsFor_eq_nil r (repoActions cl p)
          (fun a ha => by rw [repoActions_repo cl p a ha]; exact fun he => hr.1 he.symm),
        ih r hr.2]
      rfl

/-- With duplicate-free repo keys, the actions grouped under a key are
exactly that repository's contribution. -/
theorem actionsFor_flat_key (cl : Classified) :
    ∀ (repos : List (String × List GhLabel)) (r : String)
      (ls : List GhLabel), (repos.map Prod.fst).Nodup → (r, ls) ∈ repos →
    actionsFor r (repos.flatMap (repoActions cl)) = repoActions cl (r, ls) := by
  intro repos
  induction repos with
  | nil => intro r ls _ hm; simp at hm
  | cons p rest ih =>
      intro r ls hnd hm
      rw [List.map_cons, List.nodup_cons] at hnd
      rw [List.flatMap_cons, actionsFor_append]
      rcases List.mem_cons.mp hm with heq | hmem
      · subst heq
        rw [actionsFor_eq_self r (repoActions cl (r, ls))
            (fun a ha => repoActions_repo cl (r, ls) a ha),
          actionsFor_flat_not_key cl rest r hnd.1, List.append_nil]
      · have hp1 : p.1 ≠ r := by
          intro he
          exact hnd.1 (he ▸ List.mem_map_of_mem Prod.fst hmem)
        rw [actionsFor_eq_nil r (repoActions cl p)
            (fun a ha => by rw [repoActions_repo cl p a ha]; exact hp1),
          ih r ls hnd.2 hmem]
        rfl

/-! ## Claim C6 -/

/-- C6: in the action list `SyncLabels` produces for any single
repository, every `migrate` action comes after every non-migrate
action: the list is the non-migrate actions followed by the migrate
actions. -/
theorem syncLabels_migrate_last (config : Configuration)
    (repos : List (String × List GhLabel)) (now : Int) (u : RepoUpdates)
    (errs : List String) (r : String) (acts : List Update)
    (hkeys : (repos.map Prod.fst).Nodup)
    (h : syncLabels config repos now = .ok (u, errs))
    (hl : lookupA u r = some acts) :
    ∃ xs ys, acts = xs ++ ys ∧ (∀ a ∈ xs, a.why ≠ "migrate") ∧
      (∀ a ∈ ys, a.why = "migrate") := by
  unfold syncLabels at h
  cases hv : config.validateConfig with
  | some e =>
      simp only [hv] at h
      exact Except.noConfusion h
  | none =>
      simp only [hv] at h
      injection h with h2
      injection h2 with hu2 he2
      have hu : u = groupUpdates
          ((repos.foldl (syncRepoStep
            (classifyLabels config.labels ⟨[], [], []⟩ now none)) ([], [])).1) := by
        rw [← hu2, groupUpdates]
      set cl := classifyLabels config.labels ⟨[], [], []⟩ now none with hcl
      rw [hu, groupUpdates, groupFold_lookup, syncFold_flat cl repos] at hl
      by_cases hempty : actionsFor r (repos.flatMap (repoActions cl)) = []
      · rw [if_pos ⟨hempty, rfl⟩] at hl
        exact Option.noConfusion hl
      · rw [if_neg (fun hx => hempty hx.1)] at hl
        injection hl with hl2
        by_cases hr : r ∈ repos.map Prod.fst
        · rcases List.mem_map.mp hr with ⟨p, hpmem, hp1⟩
          have hm : (r, p.2) ∈ repos := by
            rw [← hp1]
            exact hpmem
          have hkey := actionsFor_flat_key cl repos r p.2 hkeys hm
          rw [hkey] at hl2
          rw [hkey] at hempty
          cases hsr : syncRepo cl r p.2 with
          | error e =>
              simp only [repoActions, hsr] at hempty
              simp at hempty
          | ok acts2 =>
              simp only [repoActions, hsr] at hl2
              have hacts : acts = acts2 := by
                rw [← hl2]
                simp [lookupA]
              rw [hacts]
              exact (syncRepo_split cl r p.2 acts2 hsr).2
        · exact absurd (actionsFor_flat_not_key cl repos r hr) hempty

/-- Witness for C6: a repository whose reconciliation emits a `change`
followed by a `migrate`; the migrate comes last. -/
theorem syncLabels_migrate_last_witness :
    syncLabels ⟨[labelTriage]⟩ [("r", [needsSigGh, tniBadGh])] 0 =
      .ok ([("r", [change "r" labelTriage,
        move "r" (ghToLabel needsSigGh) desiredNS])], []) ∧
    ∃ xs ys,
      [change "r" labelTriage, move "r" (ghToLabel needsSigGh) desiredNS] =
        xs ++ ys ∧
      (∀ a ∈ xs, a.why ≠ "migrate") ∧ (∀ a ∈ ys, a.why = "migrate") := by
  have heval : syncLabels ⟨[labelTriage]⟩ [("r", [needsSigGh, tniBadGh])] 0 =
      .ok ([("r", [change "r" labelTriage,
        move "r" (ghToLabel needsSigGh) desiredNS])], []) := by decide
  exact ⟨heval, syncLabels_migrate_last ⟨[labelTriage]⟩
    [("r", [needsSigGh, tniBadGh])] 0 _ [] "r" _ (by decide) heval (by decide)⟩

/-! ## Claim C5 -/

/-- Repository labels have no history, so their forest names are just
the lowercased label names. -/
theorem forestNames_ghToLabel : ∀ ls : List GhLabel,
    forestNames (ls.map ghToLabel) = ls.map (fun g => strToLower g.name) := by
  intro ls
  induction ls with
  | nil => simp
  | cons g rest ih =>
      rw [List.map_cons, forestNames_cons, List.map_cons, ← ih]
      rw [show ghToLabel g = Label.mk g.name g.color g.description "" "" "" [] none
        from rfl, labelNames_mk]
      simp

/-- C5: a repository whose observed labels contain a duplicate under
lowercasing is skipped — its repo gets no actions and an aggregate error
naming it is recorded — while every other repository is reconciled
exactly as it would be without the invalid one. -/
theorem syncLabels_invalid_repo_skipped (config : Configuration)
    (pre post : List (String × List GhLabel)) (rr : String) (ls : List GhLabel)
    (now : Int) (hv : config.validateConfig = none)
    (hdup : ¬ (ls.map (fun g => strToLower g.name)).Nodup)
    (hpre : rr ∉ pre.map Prod.fst) (hpost : rr ∉ post.map Prod.fst) :
    ∃ u errs u2 errs2 e,
      syncLabels config (pre ++ (rr, ls) :: post) now = .ok (u, errs) ∧
      syncLabels config (pre ++ post) now = .ok (u2, errs2) ∧
      u = u2 ∧
      ("invalid labels in " ++ rr ++ ": " ++ e) ∈ errs ∧
      lookupA u rr = none := by
  have hval : ∃ e, validate (ls.map ghToLabel) "" [] = .error e := by
    cases hval2 : validate (ls.map ghToLabel) "" [] with
    | ok s =>
        have hnd := (validate_ok_nodup (ls.map ghToLabel) "" [] s hval2).1
        rw [forestNames_ghToLabel] at hnd
        exact absurd hnd hdup
    | error e => exact ⟨e, rfl⟩
  obtain ⟨e, hval⟩ := hval
  set cl := classifyLabels config.labels ⟨[], [], []⟩ now none with hcl
  have hrepo : syncRepo cl rr ls =
      .error ("invalid labels in " ++ rr ++ ": " ++ e) := by
    simp [syncRepo, hval]
  set P := pre.foldl (syncRepoStep cl) ([], []) with hP
  have hF1 : (pre ++ (rr, ls) :: post).foldl (syncRepoStep cl) ([], []) =
      (P.1 ++ (post.foldl (syncRepoStep cl) ([], [])).1,
       (P.2 ++ ["invalid labels in " ++ rr ++ ": " ++ e]) ++
         (post.foldl (syncRepoStep cl) ([], [])).2) := by
    rw [List.foldl_append, List.foldl_cons]
    have hstep : syncRepoStep cl P (rr, ls) =
        (P.1, P.2 ++ ["invalid labels in " ++ rr ++ ": " ++ e]) := by
      simp [syncRepoStep, hrepo]
    rw [← hP, hstep, syncFold_hom cl post]
  have hF2 : (pre ++ post).foldl (syncRepoStep cl) ([], []) =
      (P.1 ++ (post.foldl (syncRepoStep cl) ([], [])).1,
       P.2 ++ (post.foldl (syncRepoStep cl) ([], [])).2) := by
    rw [List.foldl_append, ← hP]
    exact syncFold_hom cl post P.1 P.2
  have hall : actionsFor rr
      (P.1 ++ (post.foldl (syncRepoStep cl) ([], [])).1) = [] := by
    rw [actionsFor_append, hP, syncFold_flat cl pre, syncFold_flat cl post,
      actionsFor_flat_not_key cl pre rr hpre,
      actionsFor_flat_not_key cl post rr hpost]
    rfl
  refine ⟨groupUpdates (P.1 ++ (post.foldl (syncRepoStep cl) ([], [])).1),
    (P.2 ++ ["invalid labels in " ++ rr ++ ": " ++ e]) ++
      (post.foldl (syncRepoStep cl) ([], [])).2,
    groupUpdates (P.1 ++ (post.foldl (syncRepoStep cl) ([], [])).1),
    P.2 ++ (post.foldl (syncRepoStep cl) ([], [])).2,
    e, ?_, ?_, rfl, ?_, ?_⟩
  · simp only [syncLabels, hv, ← hcl]
    rw [hF1]
  · simp only [syncLabels, hv, ← hcl]
    rw [hF2]
  · simp
  · rw [groupUpdates, groupFold_lookup, hall]
    simp [lookupA]

/-- Witness for C5: repo `bad` carries both `x` and `X`; it is skipped
with an error while `a` and `b` still reconcile. -/
theorem syncLabels_invalid_repo_skipped_witness :
    cfgBug.validateConfig = none ∧
    ¬ ((dupGh.map (fun g => strToLower g.name)).Nodup) ∧
    ∃ u errs u2 errs2 e,
      syncLabels cfgBug ([("a", [])] ++ ("bad", dupGh) :: [("b", [])]) 0 =
        .ok (u, errs) ∧
      syncLabels cfgBug ([("a", [])] ++ [("b", [])]) 0 = .ok (u2, errs2) ∧
      u = u2 ∧
      ("invalid labels in " ++ "bad" ++ ": " ++ e) ∈ errs ∧
      lookupA u "bad" = none :=
  ⟨by decide, by decide,
   syncLabels_invalid_repo_skipped cfgBug [("a", [])] [("b", [])] "bad" dupGh 0
     (by decide) (by decide) (by decide) (by decide)⟩

/-! ## Completeness of `validate` on duplicate-free trees -/

/-- If the forest's lowercase names are duplicate-free and fresh with
respect to `seen`, `validate` succeeds, and the returned map binds
exactly the old keys plus the forest's names. -/
theorem validate_ok_of_nodup : ∀ (ls : List Label) (p : String)
    (seen : List (String × String)),
    (forestNames ls).Nodup → (∀ k ∈ forestNames ls, lookupA seen k = none) →
    ∃ s, validate ls p seen = .ok s ∧
      ∀ k, lookupA s k = none ↔ (lookupA seen k = none ∧ k ∉ forestNames ls)
  | [], _, seen, _, _ => ⟨seen, rfl, by simp⟩
  | Label.mk n c d tg pp ab prev da :: rest, p, seen, hnd, hfresh => by
      rw [forestNames_cons, labelNames_mk] at hnd hfresh
      obtain ⟨hnp, hnr, hndp, hndr, hdisj⟩ := nodup_head_decomp hnd
      have hseen : lookupA seen (strToLower n) = none := hfresh _ (by simp)
      have hfreshp : ∀ k ∈ forestNames prev,
          lookupA (mapSet seen (strToLower n) (p ++ "." ++ strToLower n)) k =
            none := by
        intro k hk
        rw [lookupA_mapSet, if_neg (fun he => hnp (by rw [he]; exact hk))]
        exact hfresh k (by simp [hk])
      obtain ⟨s2, hs2, hchar2⟩ := validate_ok_of_nodup prev
        (p ++ "." ++ strToLower n)
        (mapSet seen (strToLower n) (p ++ "." ++ strToLower n)) hndp hfreshp
      have hfreshr : ∀ k ∈ forestNames rest, lookupA s2 k = none := by
        intro k hk
        refine (hchar2 k).mpr ⟨?_, fun hk2 => hdisj k hk2 hk⟩
        rw [lookupA_mapSet, if_neg (fun he => hnr (by rw [he]; exact hk))]
        exact hfresh k (by simp [hk])
      obtain ⟨s3, hs3, hchar3⟩ := validate_ok_of_nodup rest p s2 hndr hfreshr
      refine ⟨s3, ?_, ?_⟩
      · simp only [validate, validateOne, hseen, hs2, hs3]
      · intro k
        rw [hchar3 k, hchar2 k, lookupA_mapSet, forestNames_cons, labelNames_mk]
        simp only [List.mem_cons, List.mem_append, not_or]
        by_cases hkn : strToLower n = k
        · rw [if_pos hkn]
          simp [hkn.symm]
        · rw [if_neg hkn]
          have hkn2 : ¬ k = strToLower n := fun he => hkn he.symm
          tauto

/-! ## A converged repository produces no actions -/

/-- With no dead names among the current labels the dead-label pass
emits no kill actions. -/
theorem buildCurrent_no_kills (repo : String) (dead : List (String × Label)) :
    ∀ (labels : List Label) (acc : List Update × List (String × Label)),
    (∀ l ∈ labels, lookupA dead (strToLower (Label.name l)) = none) →
    (labels.foldl (buildCurrentStep repo dead) acc).1 = acc.1 := by
  intro labels
  induction labels with
  | nil => intro acc _; rfl
  | cons l rest ih =>
      intro acc hnone
      rw [List.foldl_cons, ih _ (fun x hx => hnone x (List.mem_cons_of_mem l hx))]
      simp only [buildCurrentStep, hnone l (List.mem_cons_self l rest)]

theorem buildCur_cons (l : Label) (rest : List Label)
    (m : List (String × Label)) :
    buildCur (l :: rest) m =
      buildCur rest (mapSet m (strToLower (Label.name l)) l) := rfl

/-- The map component of the dead-label pass is `buildCur`. -/
theorem buildCurrent_snd (repo : String) (dead : List (String × Label)) :
    ∀ (labels : List Label) (acc : List Update × List (String × Label)),
    (labels.foldl (buildCurrentStep repo dead) acc).2 = buildCur labels acc.2 := by
  intro labels
  induction labels with
  | nil => intro acc; rfl
  | cons l rest ih =>
      intro acc
      rw [List.foldl_cons, ih (buildCurrentStep repo dead acc l), buildCur_cons]
      have hstep : (buildCurrentStep repo dead acc l).2 =
          mapSet acc.2 (strToLower (Label.name l)) l := by
        cases hd : lookupA dead (strToLower (Label.name l)) <;>
          simp [buildCurrentStep, hd]
      rw [hstep]

theorem buildCur_lookup_absent : ∀ (labels : List Label)
    (m : List (String × Label)) (k : String),
    (∀ l ∈ labels, strToLower (Label.name l) ≠ k) →
    lookupA (buildCur labels m) k = lookupA m k := by
  intro labels
  induction labels with
  | nil => intro m k _; rfl
  | cons l rest ih =>
      intro m k h
      rw [buildCur_cons, ih (mapSet m (strToLower (Label.name l)) l) k
        (fun x hx => h x (List.mem_cons_of_mem l hx)),
        lookupA_mapSet, if_neg (h l (List.mem_cons_self l rest))]

theorem buildCur_lookup_mem : ∀ (labels : List Label)
    (m : List (String × Label)) (k : String) (l : Label),
    (labels.map (fun x => strToLower (Label.name x))).Nodup →
    l ∈ labels → strToLower (Label.name l) = k →
    lookupA (buildCur labels m) k = some l := by
  intro labels
  induction labels with
  | nil => intro m k l _ hl; simp at hl
  | cons l0 rest ih =>
      intro m k l hnd hl hk
      rw [List.map_cons, List.nodup_cons] at hnd
      rw [buildCur_cons]
      rcases List.mem_cons.mp hl with heq | hmem
      · subst heq
        have habs : ∀ x ∈ rest, strToLower (Label.name x) ≠ k := by
          intro x hx he
          apply hnd.1
          rw [hk, ← he]
          exact List.mem_map_of_mem (fun y => strToLower (Label.name y)) hx
        rw [buildCur_lookup_absent rest
          (mapSet m (strToLower (Label.name l)) l) k habs,
          lookupA_mapSet, if_pos hk]
      · exact ih (mapSet m (strToLower (Label.name l0)) l0) k l hnd.2 hmem hk

/-- A binding found in the built map comes from the initial map or from
a label with that key. -/
theorem buildCur_lookup_some : ∀ (labels : List Label)
    (m : List (String × Label)) (k : String) (v : Label),
    lookupA (buildCur labels m) k = some v →
    lookupA m k ≠ none ∨ ∃ l ∈ labels, strToLower (Label.name l) = k := by
  intro labels m k v hv
  by_cases hex : ∃ l ∈ labels, strToLower (Label.name l) = k
  · exact Or.inr hex
  · push_neg at hex
    rw [buildCur_lookup_absent labels m k hex] at hv
    exact Or.inl (fun hnone => Option.noConfusion (hnone ▸ hv))

/-- A key bound in an association list looks up to something. -/
theorem lookupA_isSome_of_mem {α : Type} : ∀ (m : List (String × α))
    (k : String) (v : α), (k, v) ∈ m → ∃ w, lookupA m k = some w := by
  intro m
  induction m with
  | nil => intro k v h; simp at h
  | cons p rest ih =>
      intro k v h
      obtain ⟨k0, v0⟩ := p
      by_cases hk : k0 = k
      · exact ⟨v0, by simp [lookupA, hk]⟩
      · rcases List.mem_cons.mp h with heq | hmem
        · injection heq with h1 h2
          exact absurd h1.symm hk
        · obtain ⟨w, hw⟩ := ih k v hmem
          exact ⟨w, by simp [lookupA, hk, hw]⟩

/-- If no archaic name is present in the current map, the archaic pass
changes nothing. -/
theorem archaicFold_noop (repo : String) :
    ∀ (entries : List (String × ArchaicLabel)) (A M : List Update)
      (current : List (String × Label)),
    (∀ e ∈ entries, lookupA current e.1 = none) →
    entries.foldl (archaicStep repo) (A, M, current) = (A, M, current) := by
  intro entries
  induction entries with
  | nil => intro A M current _; rfl
  | cons e rest ih =>
      intro A M current h
      rw [List.foldl_cons]
      have hstep : archaicStep repo (A, M, current) e = (A, M, current) := by
        simp only [archaicStep, h e (List.mem_cons_self e rest)]
      rw [hstep]
      exact ih A M current (fun x hx => h x (List.mem_cons_of_mem e hx))

/-- If every required label is present with identical fields, the
required pass emits nothing. -/
theorem requiredFold_noop (repo : String) (current : List (String × Label)) :
    ∀ (entries : List (String × Label)) (acc : List Update),
    (∀ e ∈ entries, ∃ cur, lookupA current e.1 = some cur ∧
      Label.name e.2 = Label.name cur ∧ Label.color e.2 = Label.color cur ∧
      Label.description e.2 = Label.description cur) →
    entries.foldl (requiredStep repo current) acc = acc := by
  intro entries
  induction entries with
  | nil => intro acc _; rfl
  | cons e rest ih =>
      intro acc h
      rw [List.foldl_cons]
      obtain ⟨cur, hl, hn, hc, hd⟩ := h e (List.mem_cons_self e rest)
      have hstep : requiredStep repo current acc e = acc := by
        simp [requiredStep, hl, hn, hc, hd]
      rw [hstep]
      exact ih acc (fun x hx => h x (List.mem_cons_of_mem e hx))

/-- A converged repository yields a successful, empty reconciliation. -/
theorem syncRepo_converged (cl : Classified) (repo : String)
    (ls : List GhLabel) (h : Converged cl ls) : syncRepo cl repo ls = .ok [] := by
  obtain ⟨hnd, hdead, harch, hreq⟩ := h
  have hndL : (forestNames (ls.map ghToLabel)).Nodup := by
    rw [forestNames_ghToLabel]
    exact hnd
  obtain ⟨s, hs, _⟩ := validate_ok_of_nodup (ls.map ghToLabel) "" [] hndL
    (fun k _ => rfl)
  have hkills : ((ls.map ghToLabel).foldl (buildCurrentStep repo cl.dead)
      ([], [])).1 = [] := by
    apply buildCurrent_no_kills
    intro l hl
    rcases List.mem_map.mp hl with ⟨g, hg, rfl⟩
    exact hdead g hg
  have hcur := buildCurrent_snd repo cl.dead (ls.map ghToLabel) ([], [])
  have hndkeys : ((ls.map ghToLabel).map
      (fun x => strToLower (Label.name x))).Nodup := by
    rw [List.map_map]
    exact hnd
  have harch2 : ∀ e ∈ cl.archaic,
      lookupA (buildCur (ls.map ghToLabel) []) e.1 = none := by
    intro e he
    cases hx : lookupA (buildCur (ls.map ghToLabel) []) e.1 with
    | none => rfl
    | some v =>
        exfalso
        rcases buildCur_lookup_some (ls.map ghToLabel) [] e.1 v hx with
          hleft | ⟨l, hlmem, hlk⟩
        · exact hleft rfl
        · rcases List.mem_map.mp hlmem with ⟨g, hg, rfl⟩
          have h1 := harch g hg
          have hlk2 : strToLower g.name = e.1 := hlk
          rw [hlk2] at h1
          obtain ⟨w, hw⟩ := lookupA_isSome_of_mem cl.archaic e.1 e.2 he
          rw [h1] at hw
          exact Option.noConfusion hw
  have hreq2 : ∀ e ∈ cl.required, ∃ cur,
      lookupA (buildCur (ls.map ghToLabel) []) e.1 = some cur ∧
      Label.name e.2 = Label.name cur ∧ Label.color e.2 = Label.color cur ∧
      Label.description e.2 = Label.description cur := by
    intro e he
    obtain ⟨g, hg, hkey, hn, hc2, hd2⟩ := hreq e he
    refine ⟨ghToLabel g, ?_, hn.symm, hc2.symm, hd2.symm⟩
    exact buildCur_lookup_mem (ls.map ghToLabel) [] e.1 (ghToLabel g) hndkeys
      (List.mem_map_of_mem ghToLabel hg) hkey
  unfold syncRepo
  simp only [hs]
  rw [hkills, hcur]
  rw [archaicFold_noop repo cl.archaic [] [] (buildCur (ls.map ghToLabel) [])
    harch2]
  rw [show ((([] : List Update), ([] : List Update),
      buildCur (ls.map ghToLabel) []).2.2) = buildCur (ls.map ghToLabel) []
    from rfl]
  rw [requiredFold_noop repo (buildCur (ls.map ghToLabel) []) cl.required []
    hreq2]
  rfl

/-- Folding converged repositories leaves the accumulator empty. -/
theorem syncFold_converged (cl : Classified) :
    ∀ (repos : List (String × List GhLabel)),
    (∀ p ∈ repos, Converged cl p.2) →
    repos.foldl (syncRepoStep cl) ([], []) = ([], []) := by
  intro repos
  induction repos with
  | nil => intro _; rfl
  | cons p rest ih =>
      intro h
      rw [List.foldl_cons]
      have hstep : syncRepoStep cl ([], []) p = ([], []) := by
        simp [syncRepoStep, syncRepo_converged cl p.1 p.2
          (h p (List.mem_cons_self p rest))]
      rw [hstep]
      exact ih (fun q hq => h q (List.mem_cons_of_mem p hq))

/-! ## Claim C7 -/

/-- C7 counterexample: a second run of `SyncLabels` with no
repository-label mutation in between evaluates the very same expression
as the first (`SyncLabels` does not mutate its inputs), so on a repo
still missing the required `bug` label the second run again returns this
one-element action list — not an empty one. -/
theorem syncLabels_rerun_not_empty :
    syncLabels cfgBug [("r", [])] 0 =
      .ok ([("r", [create "r" labelBug])], []) ∧
    [("r", [create "r" labelBug])] ≠ ([] : RepoUpdates) :=
  ⟨by decide, by decide⟩

/-- C7 amended: for a valid desired tree, a repository snapshot that
already matches the classification (duplicate-free, nothing dead or
archaic present, all required labels present with identical fields)
yields an empty action list and no errors — the converged state is a
fixpoint of reconciliation. -/
theorem syncLabels_converged_fixpoint (config : Configuration)
    (repos : List (String × List GhLabel)) (now : Int)
    (hv : config.validateConfig = none)
    (hconv : ∀ p ∈ repos,
      Converged (classifyLabels config.labels ⟨[], [], []⟩ now none) p.2) :
    syncLabels config repos now = .ok ([], []) := by
  simp only [syncLabels, hv]
  rw [syncFold_converged (classifyLabels config.labels ⟨[], [], []⟩ now none)
    repos hconv]
  rfl

/-- Witness for the amended C7: a repository already carrying
`triage/needs-information` exactly as desired yields no actions. -/
theorem syncLabels_converged_fixpoint_witness :
    (⟨[labelTriage]⟩ : Configuration).validateConfig = none ∧
    (∀ p ∈ [("r", [tniGh])],
      Converged (classifyLabels (Configuration.labels ⟨[labelTriage]⟩)
        ⟨[], [], []⟩ 0 none) p.2) ∧
    syncLabels ⟨[labelTriage]⟩ [("r", [tniGh])] 0 = .ok ([], []) :=
  ⟨by decide, by decide,
   syncLabels_converged_fixpoint ⟨[labelTriage]⟩ [("r", [tniGh])] 0
     (by decide) (by decide)⟩

/-! ## Claim C8 -/

/-- C8 counterexample: `SyncLabels` reads the wall clock (`time.Now()`,
the `now` parameter of the embedding): the same configuration and the
same snapshot produce different updates at time 0 and at time 10,
because the label retiring at time 5 is dead only in the second run. -/
theorem syncLabels_clock_dependent :
    syncLabels cfgRetire reposOld 0 = .ok ([], []) ∧
    syncLabels cfgRetire reposOld 10 =
      .ok ([("r", [kill "r" (ghToLabel ⟨"old", "cccccc", ""⟩)])], []) ∧
    syncLabels cfgRetire reposOld 0 ≠ syncLabels cfgRetire reposOld 10 :=
  ⟨by decide, by decide, by decide⟩

/-- Classification of a node without a retirement date does not look at
the clock. -/
theorem classifyCase_now_irrelevant (cl : Classified) (parent : Option Label)
    (l : Label) (hda : Label.deleteAfter l = none) (n1 n2 : Int) :
    classifyCase cl n1 parent l = classifyCase cl n2 parent l := by
  unfold classifyCase
  rcases parent with _ | p <;> simp [hda]

/-- Classification of a tree without retirement dates does not look at
the clock. -/
theorem classify_now_irrelevant : ∀ (ls : List Label) (cl : Classified)
    (parent : Option Label) (n1 n2 : Int),
    (∀ l ∈ forestNodes ls, Label.deleteAfter l = none) →
    classifyLabels ls cl n1 parent = classifyLabels ls cl n2 parent
  | [], _, _, _, _, _ => rfl
  | Label.mk n c d tg pp ab prev da :: rest, cl, parent, n1, n2, h => by
      have hda : Label.deleteAfter (Label.mk n c d tg pp ab prev da) = none :=
        h _ (by
          rw [forestNodes_cons, labelNodes_mk]
          exact List.mem_append_left _ (List.mem_cons_self _ _))
      have hprev : ∀ l ∈ forestNodes prev,
          Label.deleteAfter l = none := fun l hl =>
        h l (by
          rw [forestNodes_cons, labelNodes_mk]
          exact List.mem_append_left _ (List.mem_cons_of_mem _ hl))
      have hrest : ∀ l ∈ forestNodes rest,
          Label.deleteAfter l = none := fun l hl =>
        h l (by
          rw [forestNodes_cons]
          exact List.mem_append_right _ hl)
      simp only [classifyLabels, classifyOne]
      rw [classifyCase_now_irrelevant cl parent
          (Label.mk n c d tg pp ab prev da) hda n1 n2,
        classify_now_irrelevant prev
          (classifyCase cl n2 parent (Label.mk n c d tg pp ab prev da))
          (parentFirst parent (Label.mk n c d tg pp ab prev da)) n1 n2 hprev,
        classify_now_irrelevant rest
          (classifyLabels prev
            (classifyCase cl n2 parent (Label.mk n c d tg pp ab prev da)) n2
            (parentFirst parent (Label.mk n c d tg pp ab prev da)))
          parent n1 n2 hrest]

/-- C8 amended: `SyncLabels` is a deterministic function of its
configuration, its snapshot and the time of the run; when no label in
the tree carries a retirement date, the time is irrelevant and the
output depends on the configuration and the snapshot alone. -/
theorem syncLabels_no_retire_time_independent (config : Configuration)
    (repos : List (String × List GhLabel)) (n1 n2 : Int)
    (h : ∀ l ∈ forestNodes config.labels, Label.deleteAfter l = none) :
    syncLabels config repos n1 = syncLabels config repos n2 := by
  cases hv : config.validateConfig with
  | some e => simp only [syncLabels, hv]
  | none =>
      simp only [syncLabels, hv]
      rw [classify_now_irrelevant config.labels ⟨[], [], []⟩ none n1 n2 h]

/-- Witness for the amended C8: with no retirement dates, runs at times
3 and 7 coincide. -/
theorem syncLabels_no_retire_time_independent_witness :
    (∀ l ∈ forestNodes (Configuration.labels cfgBug),
      Label.deleteAfter l = none) ∧
    syncLabels cfgBug [("r", [])] 3 = syncLabels cfgBug [("r", [])] 7 :=
  ⟨by decide,
   syncLabels_no_retire_time_independent cfgBug [("r", [])] 3 7 (by decide)⟩

end LabelSync
